import Mathlib

/-!
Verification development for the `ntree` package: a generic n-ary (B-tree-like)
ordered map with `Put`, `Get`, `Size`, `Height`, `Clear`, `Empty` and a sorted
`Print` dump.  Keys are modelled as `Int` with the default three-way comparator
`cmp.Compare`; values are a type parameter `V`.

Two embeddings of the same source are developed.

`Imp` is a low-level embedding that models Go slices precisely: a slice is a
(buffer id, offset, length) triple into a heap of fixed-capacity backing
arrays, `append` re-uses the backing array whenever the capacity suffices
(as the Go specification guarantees) and allocates a doubled-capacity copy
otherwise (the Go runtime growth rule for small slices), and nodes live in a
heap and carry parent back-pointers, exactly as the pointer-based source does.
This model is executable and is used to evaluate the code on concrete inputs.
This level of detail matters because `splitRoot` and `splitNonRoot` build the
`left` and `right` nodes from sub-slices `n.Elements[:mid]` and
`n.Elements[mid+1:]` of the overflowing node's element slice: the two new
nodes share one backing array, while the children slices are explicitly
copied with `append([]*Node(nil), ...)`.

`NT` is the standard value-semantics functional translation (slices as lists),
used for the universally quantified structural claims.  Out-of-bounds slice
indexing, which panics in Go, is modelled by `Option`.
-/

namespace Imp

/-- Element record: `Element[K, V]` with `K` instantiated to `Int`
(default comparator `cmp.Compare`). -/
structure El (V : Type) where
  key : Int
  val : V
deriving DecidableEq, Repr

/-- A Go slice header: buffer id, offset into the buffer, length.
The capacity is `buffer size - off`, as in Go. -/
structure Sl where
  buf : Nat
  off : Nat
  len : Nat
deriving DecidableEq, Repr

/-- Model of `Node[K, V]`: parent back-pointer, children (node ids) and the
element slice.  Children slices are modelled as plain lists because the source always
copies children arrays into fresh backing on every split, so child arrays are
never shared; element slices are shared and need the full slice model. -/
structure NodeI (V : Type) where
  parent : Option Nat
  children : List Nat
  elements : Sl
deriving DecidableEq, Repr

/-- The whole program state: the heap of element backing arrays (a slot holds
`none` for a nil `*Element`), the heap of nodes, and the `Tree` fields
`Root`, `size`, `m`. -/
structure StI (V : Type) where
  bufs : List (List (Option (El V)))
  nodes : List (NodeI V)
  root : Option Nat
  size : Int
  m : Int
deriving DecidableEq, Repr

/-- Read slot `i` of a slice with the Go bounds check (`i < len`); the result
is the stored `*Element` pointer, possibly nil.  `none` overall means a
runtime panic. -/
def readSlot (st : StI V) (s : Sl) (i : Nat) : Option (Option (El V)) :=
  if i < s.len then do
    let d ← st.bufs[s.buf]?
    d[s.off + i]?
  else none

/-- Read and dereference slot `i`: a nil pointer dereference is a panic. -/
def readElem (st : StI V) (s : Sl) (i : Nat) : Option (El V) := do
  let p ← readSlot st s i
  p

/-- Write slot `i` of a slice (bounds-checked assignment `s[i] = x`). -/
def writeSlot (st : StI V) (s : Sl) (i : Nat) (x : Option (El V)) : Option (StI V) :=
  if i < s.len then do
    let d ← st.bufs[s.buf]?
    if s.off + i < d.length then
      some { st with bufs := st.bufs.set s.buf (d.set (s.off + i) x) }
    else none
  else none

/-- Go runtime growth rule for small slices: double the capacity, or take the
needed size when doubling is not enough. -/
def growCap (old needed : Nat) : Nat :=
  if needed ≤ old then old else max needed (2 * old)

/-- Go `append(s, x)`: re-uses the backing array when the spare capacity
suffices (writing one slot past the slice's length), otherwise allocates a
grown copy.  Returns the new state and the new slice header. -/
def sliceAppend (st : StI V) (s : Sl) (x : Option (El V)) : Option (StI V × Sl) := do
  let d ← st.bufs[s.buf]?
  if s.off + s.len < d.length then
    some ({ st with bufs := st.bufs.set s.buf (d.set (s.off + s.len) x) },
          ⟨s.buf, s.off, s.len + 1⟩)
  else
    let newcap := growCap (d.length - s.off) (s.len + 1)
    let vals := (d.drop s.off).take s.len
    let newbuf := vals ++ x :: List.replicate (newcap - (s.len + 1)) none
    some ({ st with bufs := st.bufs ++ [newbuf] }, ⟨st.bufs.length, 0, s.len + 1⟩)

/-- Write a run of values at consecutive buffer positions. -/
def writeRun (d : List (Option (El V))) (i : Nat) : List (Option (El V)) → List (Option (El V))
  | [] => d
  | v :: vs => writeRun (d.set i v) (i + 1) vs

/-- Go `copy(dst, src)` with memmove semantics: all source values are read
before any destination slot is written, so overlapping slices behave as in
Go. -/
def sliceCopy (st : StI V) (dst src : Sl) : Option (StI V) := do
  let sd ← st.bufs[src.buf]?
  let n := min dst.len src.len
  let vals := (sd.drop src.off).take n
  let dd ← st.bufs[dst.buf]?
  some { st with bufs := st.bufs.set dst.buf (writeRun dd dst.off vals) }

/-- Sub-slice `s[lo:hi]` with the Go bounds check. -/
def subSl (s : Sl) (lo hi : Nat) : Option Sl :=
  if lo ≤ hi ∧ hi ≤ s.len then some ⟨s.buf, s.off + lo, hi - lo⟩ else none

def getNodeI (st : StI V) (i : Nat) : Option (NodeI V) := st.nodes[i]?

def setNodeI (st : StI V) (i : Nat) (n : NodeI V) : StI V :=
  { st with nodes := st.nodes.set i n }

def allocNode (st : StI V) (n : NodeI V) : StI V × Nat :=
  ({ st with nodes := st.nodes ++ [n] }, st.nodes.length)

/-- Set the parent back-pointer of every node in `cs` to `p` (the reparenting
loops in `splitRoot` and `splitNonRoot`). -/
def reparentAll (st : StI V) (cs : List Nat) (p : Nat) : Option (StI V) :=
  match cs with
  | [] => some st
  | c :: rest => do
    let cn ← getNodeI st c
    reparentAll (setNodeI st c { cn with parent := some p }) rest p

/-- The default comparator `cmp.Compare` for `Int`: -1, 0 or +1. -/
def cmpCompare (x y : Int) : Int :=
  if x < y then -1 else if x > y then 1 else 0

/-- The binary-search loop of `Tree.search`, reading element keys through the
slice.  The fuel argument only bounds the iteration count; the caller passes
`len + 2`, which always suffices since the interval shrinks every round. -/
def searchLoopI (st : StI V) (s : Sl) (key : Int) : Int → Int → Nat → Option (Nat × Bool)
  | _, _, 0 => none
  | lo, hi, fuel + 1 =>
    if lo ≤ hi then do
      let mid := (lo + hi) / 2
      let e ← readElem st s mid.toNat
      let comp := cmpCompare key e.key
      if comp = 0 then some (mid.toNat, true)
      else if comp > 0 then searchLoopI st s key (mid + 1) hi fuel
      else searchLoopI st s key lo (mid - 1) fuel
    else some (lo.toNat, false)

/-- Model of `Tree.search` on the node `nid`. -/
def searchI (st : StI V) (nid : Nat) (key : Int) : Option (Nat × Bool) := do
  let n ← getNodeI st nid
  searchLoopI st n.elements key 0 ((n.elements.len : Int) - 1) (n.elements.len + 2)

/-- The node-partition step shared by `splitRoot` and `splitNonRoot`: create
`left` and `right` whose element slices are the sub-slices `[:mid]` and
`[mid+1:]` of `n`'s element slice (shared backing array), and, if `n` is
internal, give them copies of the child-id halves and reparent those
children.  Returns the state and the ids of `left` and `right`. -/
def makeSplitKids (st0 : StI V) (n : NodeI V) (pid : Option Nat) (mid : Nat) :
    Option (StI V × Nat × Nat) := do
  let sL ← subSl n.elements 0 mid
  let sR ← subSl n.elements (mid + 1) n.elements.len
  let (st1, lid) := allocNode st0 ⟨pid, [], sL⟩
  let (st2, rid) := allocNode st1 ⟨pid, [], sR⟩
  if n.children.isEmpty then some (st2, lid, rid)
  else do
    let lcs := n.children.take (mid + 1)
    let rcs := n.children.drop (mid + 1)
    let stA := setNodeI st2 lid ⟨pid, lcs, sL⟩
    let stB := setNodeI stA rid ⟨pid, rcs, sR⟩
    let stC ← reparentAll stB lcs lid
    let stD ← reparentAll stC rcs rid
    some (stD, lid, rid)

/-- Model of `Tree.splitRoot`: partition the root, then build a new root holding the
promoted element (a fresh one-element backing array) over `[left, right]`. -/
def splitRootI (st0 : StI V) : Option (StI V) := do
  let rid ← st0.root
  let r ← getNodeI st0 rid
  let mid := ((st0.m - 1) / 2).toNat
  let (st3, lid, rid2) ← makeSplitKids st0 r none mid
  let p ← readSlot st3 r.elements mid
  let pb := st3.bufs.length
  let st4 := { st3 with bufs := st3.bufs ++ [[p]] }
  let (st5, nrid) := allocNode st4 ⟨none, [lid, rid2], ⟨pb, 0, 1⟩⟩
  let st6 ← reparentAll st5 [lid, rid2] nrid
  some { st6 with root := some nrid }

/-- The parent-side element insertion of `splitNonRoot`: re-search the parent
for the promoted key, `append` a nil slot to the parent's element slice,
shift with `copy`, and store the (re-read) promoted element pointer.
The two reads of `n.Elements[mid]` (one for the search key, one for the
pointer stored into the parent) happen at the same program points as in the
source, since the parent's `append` may rewrite shared backing in between.
Returns the search position `ipos`. -/
def parentElemInsert (st3 : StI V) (n : NodeI V) (pid : Nat) (mid : Nat) :
    Option (StI V × Nat) := do
  let pel ← readElem st3 n.elements mid
  let (ipos, _) ← searchI st3 pid pel.key
  let p1 ← getNodeI st3 pid
  let (st4, pes1) ← sliceAppend st3 p1.elements none
  let st5 := setNodeI st4 pid { p1 with elements := pes1 }
  let dstS ← subSl pes1 (ipos + 1) pes1.len
  let srcS ← subSl pes1 ipos pes1.len
  let st6 ← sliceCopy st5 dstS srcS
  let p2 ← readSlot st6 n.elements mid
  let st7 ← writeSlot st6 pes1 ipos p2
  some (st7, ipos)

/-- All of `Tree.splitNonRoot` except its trailing recursive `t.split(parent)`
call; returns the parent id so the caller can continue the cascade.  After
the element insertion, the parent's child slot at `ipos` is overwritten with
`left` and `right` is inserted just after it (`append` + `copy` + assign on
the never-shared children array is insertion at `ipos+1`). -/
def splitNonRootSurgery (st0 : StI V) (nid : Nat) : Option (StI V × Nat) := do
  let n ← getNodeI st0 nid
  let pid ← n.parent
  let mid := ((st0.m - 1) / 2).toNat
  let (st3, lid, rid) ← makeSplitKids st0 n (some pid) mid
  let (st7, ipos) ← parentElemInsert st3 n pid mid
  let pn ← getNodeI st7 pid
  if ipos < pn.children.length then
    let cs1 := pn.children.set ipos lid
    let cs2 := cs1.take (ipos + 1) ++ rid :: cs1.drop (ipos + 1)
    some (setNodeI st7 pid { pn with children := cs2 }, pid)
  else none

/-- Model of `Tree.split`: no-op unless the node overflows (`len > m-1`); split the
root, or split a non-root node and cascade to its parent. -/
def splitI : Nat → StI V → Nat → Option (StI V)
  | 0, _, _ => none
  | fuel + 1, st, nid => do
    let n ← getNodeI st nid
    if (n.elements.len : Int) > st.m - 1 then
      if st.root = some nid then splitRootI st
      else do
        let (st', pid) ← splitNonRootSurgery st nid
        splitI fuel st' pid
    else some st

/-- Model of `Tree.insertIntoLeaf`: search; overwrite in place when found, otherwise
`append` a nil slot, shift with `copy`, assign the new element, and split. -/
def insertIntoLeafI (st0 : StI V) (nid : Nat) (ele : El V) : Option (StI V × Bool) := do
  let n ← getNodeI st0 nid
  let (ipos, found) ← searchI st0 nid ele.key
  if found then do
    let st1 ← writeSlot st0 n.elements ipos (some ele)
    some (st1, false)
  else do
    let (st1, es1) ← sliceAppend st0 n.elements none
    let st2 := setNodeI st1 nid { n with elements := es1 }
    let dstS ← subSl es1 (ipos + 1) es1.len
    let srcS ← subSl es1 ipos es1.len
    let st3 ← sliceCopy st2 dstS srcS
    let st4 ← writeSlot st3 es1 ipos (some ele)
    let st5 ← splitI (2 * st4.nodes.length + 4) st4 nid
    some (st5, true)

/-- Model of `Tree.insert`: leaf insertion or descent into the child at the search
position (`insertIntoChildren`, inlined here; on a found key it overwrites in
place and never descends).  Fuel bounds the descent depth; callers pass more
than the node count, which exceeds the tree height. -/
def insertI : Nat → StI V → Nat → El V → Option (StI V × Bool)
  | 0, _, _, _ => none
  | fuel + 1, st, nid, ele => do
    let n ← getNodeI st nid
    if n.children.isEmpty then insertIntoLeafI st nid ele
    else do
      let (ipos, found) ← searchI st nid ele.key
      if found then do
        let st1 ← writeSlot st n.elements ipos (some ele)
        some (st1, false)
      else do
        let cid ← n.children[ipos]?
        insertI fuel st cid ele

/-- Model of `Tree.Put`. -/
def putI (st : StI V) (k : Int) (v : V) : Option (StI V) :=
  match st.root with
  | none =>
    some { st with
      bufs := st.bufs ++ [[some ⟨k, v⟩]],
      nodes := st.nodes ++ [⟨none, [], ⟨st.bufs.length, 0, 1⟩⟩],
      root := some st.nodes.length,
      size := st.size + 1 }
  | some rid => do
    let (st', added) ← insertI (st.nodes.length + 2) st rid ⟨k, v⟩
    some { st' with size := if added then st'.size + 1 else st'.size }

/-- The descent loop of `Tree.searchRecursive` (the `t.Empty()` early return
is handled in `getI`). -/
def searchRecI : Nat → StI V → Nat → Int → Option (Option (Nat × Nat))
  | 0, _, _, _ => none
  | fuel + 1, st, nid, key => do
    let (ipos, found) ← searchI st nid key
    if found then some (some (nid, ipos))
    else do
      let n ← getNodeI st nid
      if n.children.isEmpty then some none
      else do
        let cid ← n.children[ipos]?
        searchRecI fuel st cid key

/-- Model of `Tree.Get`: `some none` is Go's `(zero, false)`, `some (some v)` is
`(v, true)`, `none` is a panic. -/
def getI (st : StI V) (key : Int) : Option (Option V) :=
  match st.root with
  | none => some none
  | some rid =>
    if st.size = 0 then some none
    else do
      let r ← searchRecI (st.nodes.length + 2) st rid key
      match r with
      | none => some none
      | some (nid, ipos) => do
        let n ← getNodeI st nid
        let e ← readElem st n.elements ipos
        some (some e.val)

/-- The leftmost-spine walk of `Tree.height`. -/
def heightLoopI : Nat → StI V → Nat → Option Int
  | 0, _, _ => none
  | fuel + 1, st, nid => do
    let n ← getNodeI st nid
    if n.children.isEmpty then some 1
    else do
      let cid ← n.children[0]?
      let h ← heightLoopI fuel st cid
      some (h + 1)

/-- Model of `Tree.Height`: 0 on a nil root. -/
def heightI (st : StI V) : Option Int :=
  match st.root with
  | none => some 0
  | some rid => heightLoopI (st.nodes.length + 2) st rid

/-- One pass of the `Tree.print` loop body: `cnt` counts the remaining
iterations (`len(Elements)+1` in total), `e` is the loop index; a child is
printed when `e < len(Children)`, a key when `e < len(Elements)`. -/
def printStepsI (childPr : Nat → Option (List Int)) (st : StI V) (n : NodeI V) :
    Nat → Nat → Option (List Int)
  | 0, _ => some []
  | cnt + 1, e => do
    let out1 ← match n.children[e]? with
      | some cid => childPr cid
      | none => some []
    let out2 ← if e < n.elements.len then do
        let el ← readElem st n.elements e
        some [el.key]
      else some []
    let rest ← printStepsI childPr st n cnt (e + 1)
    some (out1 ++ out2 ++ rest)

/-- Model of `Tree.print`: the key sequence written for the subtree at `nid`
(indentation is irrelevant to the claims and omitted). -/
def printNodeI : Nat → StI V → Nat → Option (List Int)
  | 0, _, _ => none
  | fuel + 1, st, nid => do
    let n ← getNodeI st nid
    printStepsI (fun cid => printNodeI fuel st cid) st n (n.elements.len + 1) 0

/-- Model of `Tree.Print`: nothing is written on a nil root. -/
def printI (st : StI V) : Option (List Int) :=
  match st.root with
  | none => some []
  | some rid => printNodeI (st.nodes.length + 2) st rid

/-- Model of `New[K, V](m)`. -/
def newTreeI (V : Type) (m : Int) : StI V := ⟨[], [], none, 0, m⟩

/-- Model of `Tree.Clear`. -/
def clearI (st : StI V) : StI V := { st with root := none, size := 0 }

/-- Model of `Tree.Empty`. -/
def emptyI (st : StI V) : Bool := st.size == 0

/-- Fold `Put` over a list of key-value pairs starting from `New(m)`. -/
def runPutsI (m : Int) (ps : List (Int × V)) : Option (StI V) :=
  ps.foldlM (fun st p => putI st p.1 p.2) (newTreeI V m)

/-- Keys stored in the node `nid`, in slot order. -/
def keysOfNodeI (st : StI V) (nid : Nat) : Option (List Int) := do
  let n ← getNodeI st nid
  (List.range n.elements.len).mapM (fun i => (readElem st n.elements i).map El.key)

/-- Keys of the root node. -/
def rootKeysI (st : StI V) : Option (List Int) := do
  let rid ← st.root
  keysOfNodeI st rid

/-- Keys of each child of the root, left to right. -/
def childrenKeysI (st : StI V) : Option (List (List Int)) := do
  let rid ← st.root
  let r ← getNodeI st rid
  r.children.mapM (keysOfNodeI st)

/-- Largest element count over the nodes reachable from `nid`. -/
def maxLenLoopI (st : StI V) : Nat → Nat → Nat
  | 0, _ => 0
  | fuel + 1, nid =>
    match getNodeI st nid with
    | none => 0
    | some n => n.children.foldl (fun acc c => max acc (maxLenLoopI st fuel c)) n.elements.len

/-- Largest element count over the nodes reachable from the root. -/
def maxNodeLenI (st : StI V) : Nat :=
  match st.root with
  | none => 0
  | some rid => maxLenLoopI st (st.nodes.length + 2) rid

/-- Check that every node reachable from `nid` has strictly ascending keys;
`none` on a panic or on fuel exhaustion (the reachable graph is acyclic, so
the node count bounds the depth). -/
def sortedNodesLoopI (st : StI V) : Nat → Nat → Option Bool
  | 0, _ => none
  | fuel + 1, nid => do
    let n ← getNodeI st nid
    let ks ← keysOfNodeI st nid
    let rest ← n.children.mapM (sortedNodesLoopI st fuel)
    some (decide (List.Pairwise (· < ·) ks) && rest.all id)

/-- Check that every node reachable from the root has strictly ascending
keys. -/
def allNodesSortedI (st : StI V) : Option Bool :=
  match st.root with
  | none => some true
  | some rid => sortedNodesLoopI st (st.nodes.length + 2) rid

/-- An API call of the tree: `Put` or `Clear` (`Get`, `Size`, `Height`,
`Empty` and `Print` do not mutate the tree). -/
inductive OpI (V : Type) where
  | opPut (k : Int) (v : V) : OpI V
  | opClear : OpI V

/-- Run one API call on the slice-accurate model. -/
def applyOpI (st : StI V) : OpI V → Option (StI V)
  | .opPut k v => putI st k v
  | .opClear => some (clearI st)

/-- Fold a sequence of API calls starting from `New(m)` on the slice-accurate
model. -/
def runOpsI (m : Int) (ops : List (OpI V)) : Option (StI V) :=
  ops.foldlM applyOpI (newTreeI V m)

/-- The structural arena invariant of the slice-accurate model, witnessed by a
level assignment `hgt` on node ids.  It constrains only the node records
(children lists, parent back-pointers, element-slice lengths) and the root id
— never the contents of the element backing arrays — because the source copies
every children array into fresh backing on each split, so the child structure
is immune to the element-slice aliasing.  `hgt` assigns every leaf level 0,
drops by exactly one along every child edge, and rises by exactly one along
every parent back-pointer (stale or not). -/
structure ArenaInv (ns : List (NodeI V)) (rt : Option Nat) (hgt : Nat → Nat) : Prop where
  root_lt : ∀ r : Nat, rt = some r → r < ns.length
  child_lt : ∀ (nid : Nat) (n : NodeI V), ns[nid]? = some n → ∀ c ∈ n.children, c < ns.length
  parent_lt : ∀ (nid : Nat) (n : NodeI V) (p : Nat), ns[nid]? = some n → n.parent = some p →
    p < ns.length
  leaf_hgt : ∀ (nid : Nat) (n : NodeI V), ns[nid]? = some n → n.children = [] → hgt nid = 0
  child_hgt : ∀ (nid : Nat) (n : NodeI V), ns[nid]? = some n → ∀ c ∈ n.children,
    hgt c + 1 = hgt nid
  parent_hgt : ∀ (nid : Nat) (n : NodeI V) (p : Nat), ns[nid]? = some n → n.parent = some p →
    hgt nid + 1 = hgt p
  count_ok : ∀ (nid : Nat) (n : NodeI V), ns[nid]? = some n → n.children ≠ [] →
    n.children.length = n.elements.len + 1
  hgt_lt : ∀ nid : Nat, nid < ns.length → hgt nid < ns.length

/-- A state of the slice-accurate model satisfies the structural invariant
when some level assignment witnesses it. -/
def InvI (st : StI V) : Prop := ∃ hgt : Nat → Nat, ArenaInv st.nodes st.root hgt

/-- The nodes visited by the root-to-leaf descents (`searchRecursive`,
`insertIntoChildren`, the height walk, `print`): the root and, inductively,
any child of a visited node. -/
inductive ReachI (st : StI V) : Nat → Prop where
  | root : ∀ r, st.root = some r → ReachI st r
  | child : ∀ nid n c, ReachI st nid → getNodeI st nid = some n →
      c ∈ n.children → ReachI st c

/-- Depths (distance from `nid`) of all leaves in the subtree of `nid`,
left to right; `none` on a dangling id or on fuel exhaustion. -/
def leafDepthsLoopI (st : StI V) : Nat → Nat → Nat → Option (List Nat)
  | 0, _, _ => none
  | fuel + 1, nid, d => do
    let n ← getNodeI st nid
    if n.children.isEmpty then some [d]
    else do
      let ls ← n.children.mapM (fun c => leafDepthsLoopI st fuel c (d + 1))
      some ls.flatten

/-- Depths of all leaves reachable from the root (empty list on a nil
root). -/
def leafDepthsI (st : StI V) : Option (List Nat) :=
  match st.root with
  | none => some []
  | some rid => leafDepthsLoopI st (st.nodes.length + 2) rid 0

end Imp

namespace NT

/-- Model of `Node[K, V]` in the value-semantics translation: the element slice is a
list of key-value pairs, the children array a list of subtrees.  Keys are
`Int` with the default comparator `cmp.Compare`. -/
inductive GoNode (V : Type) where
  | mk (elements : List (Int × V)) (children : List (GoNode V)) : GoNode V

def GoNode.elements : GoNode V → List (Int × V)
  | .mk es _ => es

def GoNode.children : GoNode V → List (GoNode V)
  | .mk _ cs => cs

/-- Model of `Tree[K, V]`: root (nil when empty), `size`, branching factor `m`. -/
structure GoTree (V : Type) where
  root : Option (GoNode V)
  size : Nat
  m : Nat

/-- The default comparator `cmp.Compare` for `Int`. -/
def cmpZ (x y : Int) : Int := if x < y then -1 else if x > y then 1 else 0

/-- The loop of `Tree.search`: binary search with Go `int` bounds `lo`, `hi`.
Reading `Elements[mid]` out of bounds would panic, hence `Option`.  The fuel
only bounds the iteration count; `search` passes `length + 2`, which always
suffices because the interval shrinks every iteration. -/
def searchLoop (es : List (Int × V)) (key : Int) : Int → Int → Nat → Option (Nat × Bool)
  | _, _, 0 => none
  | lo, hi, fuel + 1 =>
    if lo ≤ hi then
      let mid := (lo + hi) / 2
      match es[mid.toNat]? with
      | none => none
      | some e =>
        let comp := cmpZ key e.1
        if comp = 0 then some (mid.toNat, true)
        else if comp > 0 then searchLoop es key (mid + 1) hi fuel
        else searchLoop es key lo (mid - 1) fuel
    else some (lo.toNat, false)

/-- Model of `Tree.search` over a node's elements: `(index, found)`. -/
def search (es : List (Int × V)) (key : Int) : Option (Nat × Bool) :=
  searchLoop es key 0 ((es.length : Int) - 1) (es.length + 2)

/-- Insertion into a list at position `i` (the `append` + `copy` shift +
assignment idiom of the source, on unshared backing). -/
def listInsertAt (xs : List α) (i : Nat) (a : α) : List α :=
  xs.take i ++ a :: xs.drop i

/-- Model of `Tree.shouldSplit`: more than `maxElements = m - 1` entries. -/
def shouldSplit (m : Nat) (n : GoNode V) : Bool :=
  decide (n.elements.length > m - 1)

/-- The partition common to `splitRoot` and `splitNonRoot`: `left` keeps
`Elements[:mid]`, `right` keeps `Elements[mid+1:]`, the element at `mid` is
promoted; an internal node's children split as `[:mid+1]` and `[mid+1:]`.
Out-of-range slicing (impossible on an overflowing well-formed node) would
panic in Go, hence `Option`. -/
def splitParts (m : Nat) (n : GoNode V) : Option (GoNode V × (Int × V) × GoNode V) :=
  let mid := (m - 1) / 2
  match n.elements[mid]? with
  | none => none
  | some promoted =>
    if n.children.isEmpty then
      some (⟨n.elements.take mid, []⟩, promoted, ⟨n.elements.drop (mid + 1), []⟩)
    else if n.children.length < mid + 1 then none
    else
      some (⟨n.elements.take mid, n.children.take (mid + 1)⟩, promoted,
            ⟨n.elements.drop (mid + 1), n.children.drop (mid + 1)⟩)

/-- Model of `Tree.insertIntoLeaf`: overwrite in place when the key is found, else
insert at the search position.  The subsequent `t.split(n)` of the source is
performed by the caller on the returned node (`insert` for a non-root node,
`put` for the root), which is where the parent-side mutations of the
pointer-based original take place. -/
def insertIntoLeaf (n : GoNode V) (ele : Int × V) : Option (GoNode V × Bool) :=
  match search n.elements ele.1 with
  | none => none
  | some (ipos, found) =>
    if found then
      if ipos < n.elements.length then
        some (⟨n.elements.set ipos ele, n.children⟩, false)
      else none
    else
      if ipos ≤ n.elements.length then
        some (⟨listInsertAt n.elements ipos ele, n.children⟩, true)
      else none

mutual

/-- Model of `Tree.insert`: dispatch to the leaf or the internal-node case. -/
def insert (m : Nat) (n : GoNode V) (ele : Int × V) : Option (GoNode V × Bool) :=
  if n.children.isEmpty then insertIntoLeaf n ele
  else insertIntoChildren m n ele
termination_by (sizeOf n, 1)

/-- Model of `Tree.insertIntoChildren`: overwrite in place when the key is found
(never descending), else recurse into `Children[ipos]`.  When the updated
child overflows, the parent-side of `splitNonRoot` runs here: re-search this
node for the promoted key to get `jpos`, insert the promoted element at
`jpos`, overwrite the child slot `jpos` with `left` and insert `right` at
`jpos + 1`.  The source performs these mutations through the child's parent
pointer before `insert` returns; the net effect on the parent is the same. -/
def insertIntoChildren (m : Nat) (n : GoNode V) (ele : Int × V) : Option (GoNode V × Bool) :=
  match search n.elements ele.1 with
  | none => none
  | some (ipos, found) =>
    if found then
      if ipos < n.elements.length then
        some (⟨n.elements.set ipos ele, n.children⟩, false)
      else none
    else
      match n.children.attach[ipos]? with
      | none => none
      | some c =>
        match insert m c.1 ele with
        | none => none
        | some (c', added) =>
          let cs0 := n.children.set ipos c'
          if shouldSplit m c' then
            match splitParts m c' with
            | none => none
            | some (left, promoted, right) =>
              match search n.elements promoted.1 with
              | none => none
              | some (jpos, _) =>
                if jpos ≤ n.elements.length ∧ jpos < cs0.length then
                  some (⟨listInsertAt n.elements jpos promoted,
                         listInsertAt (cs0.set jpos left) (jpos + 1) right⟩, added)
                else none
          else some (⟨n.elements, cs0⟩, added)
termination_by (sizeOf n, 0)
decreasing_by
  have hlt : sizeOf c.1 < sizeOf n := by
    cases n with
    | mk es cs =>
      have h1 : sizeOf c.1 < sizeOf cs := List.sizeOf_lt_of_mem c.2
      simp only [GoNode.mk.sizeOf_spec]
      omega
  exact Prod.Lex.left _ _ hlt

end

/-- Model of `Tree.Put`.  The root-level `t.split` (that is, `splitRoot`) runs here:
a new root holds the promoted element over `[left, right]`. -/
def put (t : GoTree V) (k : Int) (v : V) : Option (GoTree V) :=
  match t.root with
  | none => some { t with root := some ⟨[(k, v)], []⟩, size := t.size + 1 }
  | some r =>
    match insert t.m r (k, v) with
    | none => none
    | some (r', added) =>
      let newSize := if added then t.size + 1 else t.size
      if shouldSplit t.m r' then
        match splitParts t.m r' with
        | none => none
        | some (left, promoted, right) =>
          some { t with root := some ⟨[promoted], [left, right]⟩, size := newSize }
      else some { t with root := some r', size := newSize }

/-- The loop of `Tree.searchRecursive` (the `t.Empty()` early return is in
`get`): `some none` is not-found, `some (some v)` is found. -/
def searchRec (n : GoNode V) (k : Int) : Option (Option V) :=
  match search n.elements k with
  | none => none
  | some (ipos, found) =>
    if found then
      match n.elements[ipos]? with
      | none => none
      | some e => some (some e.2)
    else if n.children.isEmpty then some none
    else
      match n.children.attach[ipos]? with
      | none => none
      | some c => searchRec c.1 k
termination_by sizeOf n
decreasing_by
  cases n with
  | mk es cs =>
    have h1 : sizeOf c.1 < sizeOf cs := List.sizeOf_lt_of_mem c.2
    simp only [GoNode.mk.sizeOf_spec]
    omega

/-- Model of `Tree.Get`. -/
def get (t : GoTree V) (k : Int) : Option (Option V) :=
  match t.root with
  | none => some none
  | some r => if t.size = 0 then some none else searchRec r k

/-- Model of `New[K, V](m)`. -/
def treeNew (V : Type) (m : Nat) : GoTree V := ⟨none, 0, m⟩

/-- Model of `Tree.Clear`. -/
def clear (t : GoTree V) : GoTree V := { t with root := none, size := 0 }

/-- Model of `Tree.Empty`. -/
def emptyT (t : GoTree V) : Bool := t.size == 0

/-- Fold `Put` over a list of key-value pairs starting from `New(m)`. -/
def buildPuts (m : Nat) (ps : List (Int × V)) : Option (GoTree V) :=
  ps.foldlM (fun t p => put t p.1 p.2) (treeNew V m)

/-- An API call: `Put(k, v)` or `Clear()`. -/
inductive OpT (V : Type) where
  | opPut (k : Int) (v : V) : OpT V
  | opClear : OpT V

/-- Run one API call. -/
def applyOp (t : GoTree V) : OpT V → Option (GoTree V)
  | .opPut k v => put t k v
  | .opClear => some (clear t)

/-- Fold a sequence of API calls starting from `New(m)`. -/
def buildOps (m : Nat) (ops : List (OpT V)) : Option (GoTree V) :=
  ops.foldlM applyOp (treeNew V m)

/-- Strict ascending order of an element list, keyed on the first component:
this is "entries strictly ascending by the comparator" for the default
`Int` comparator. -/
def sortedE (es : List (Int × V)) : Prop :=
  List.Pairwise (fun a b : Int × V => a.1 < b.1) es

/-- Every lower bound present in `lo` is strictly below `k`. -/
def lbOk (lo : Option Int) (k : Int) : Prop := ∀ a ∈ lo, a < k

/-- Every upper bound present in `hi` is strictly above `k`. -/
def ubOk (hi : Option Int) (k : Int) : Prop := ∀ b ∈ hi, k < b

/-- The key `k` lies strictly between the optional bounds. -/
def inRange (lo hi : Option Int) (k : Int) : Prop := lbOk lo k ∧ ubOk hi k

/-- Lower separator for the subtree under child `i` of a node with elements
`es` and overall lower bound `lo`. -/
def boundL (es : List (Int × V)) (lo : Option Int) (i : Nat) : Option Int :=
  if i = 0 then lo else (es[i - 1]?).map Prod.fst

/-- Upper separator for the subtree under child `i`. -/
def boundR (es : List (Int × V)) (hi : Option Int) (i : Nat) : Option Int :=
  ((es[i]?).map Prod.fst).or hi

/-- The search-tree invariant maintained by insertion: `BT n lo hi h` says
that within `n` every node is strictly sorted, an internal node has exactly
one more child than elements, every key lies strictly between the optional
bounds `lo` and `hi`, each child subtree lies strictly between its
neighbouring separators, and every leaf is at depth exactly `h`.  This is
the conjunction of the spec's ordering, fan-out and balance invariants. -/
inductive BT : GoNode V → Option Int → Option Int → Nat → Prop where
  | leaf : ∀ (es : List (Int × V)) (lo hi : Option Int), sortedE es →
      (∀ e ∈ es, inRange lo hi e.1) → BT (GoNode.mk es []) lo hi 0
  | node : ∀ (es : List (Int × V)) (cs : List (GoNode V)) (lo hi : Option Int) (h : Nat),
      cs ≠ [] → cs.length = es.length + 1 → sortedE es →
      (∀ e ∈ es, inRange lo hi e.1) →
      (∀ (i : Nat) (hic : i < cs.length), BT cs[i] (boundL es lo i) (boundR es hi i) h) →
      BT (GoNode.mk es cs) lo hi (h + 1)

/-- Tree-level invariant: an empty root means size 0; a non-empty root
satisfies the search-tree invariant with unbounded window and a nonzero
size. -/
def TInv (t : GoTree V) : Prop :=
  (t.root = none → t.size = 0) ∧
  (∀ r, t.root = some r → (∃ h, BT r none none h) ∧ t.size ≠ 0)

/-- All nodes of a subtree (the node itself and everything below). -/
def nodesList : GoNode V → List (GoNode V)
  | .mk es cs => .mk es cs :: cs.attach.flatMap (fun c => nodesList c.1)
termination_by n => sizeOf n
decreasing_by
  simp_wf
  have h1 := List.sizeOf_lt_of_mem c.2
  omega

/-- Depth (distance from the given node) of every leaf, left to right. -/
def leafDepths : GoNode V → List Nat
  | .mk _ cs =>
    if cs.isEmpty then [0]
    else cs.attach.flatMap (fun c => (leafDepths c.1).map (· + 1))
termination_by n => sizeOf n
decreasing_by
  simp_wf
  have h1 := List.sizeOf_lt_of_mem c.2
  omega



theorem cmpZ_eq_zero {x y : Int} : cmpZ x y = 0 ↔ x = y := by
  simp only [cmpZ]; split <;> (try split) <;> omega

theorem cmpZ_pos {x y : Int} : 0 < cmpZ x y ↔ y < x := by
  simp only [cmpZ]; split <;> (try split) <;> omega

theorem cmpZ_neg {x y : Int} : cmpZ x y < 0 ↔ x < y := by
  simp only [cmpZ]; split <;> (try split) <;> omega

theorem searchLoop_total (es : List (Int × V)) (key : Int) :
    ∀ (fuel : Nat) (lo hi : Int), 0 ≤ lo → lo ≤ (es.length : Int) →
    hi < (es.length : Int) → (hi - lo + 1).toNat < fuel →
    ∃ i b, searchLoop es key lo hi fuel = some (i, b) ∧ i ≤ es.length := by
  intro fuel
  induction fuel with
  | zero => intro lo hi _ _ _ hf; omega
  | succ f ih =>
    intro lo hi h0 hlo hhi hf
    rw [searchLoop]
    by_cases hlh : lo ≤ hi
    · simp only [if_pos hlh]
      have hmidb : lo ≤ (lo + hi) / 2 ∧ (lo + hi) / 2 ≤ hi := by omega
      have hmn : ((lo + hi) / 2).toNat < es.length := by omega
      rw [List.getElem?_eq_getElem hmn]
      simp only
      by_cases hz : cmpZ key (es[((lo + hi) / 2).toNat]).1 = 0
      · simp only [if_pos hz]
        exact ⟨((lo + hi) / 2).toNat, true, rfl, by omega⟩
      · simp only [if_neg hz]
        by_cases hp : cmpZ key (es[((lo + hi) / 2).toNat]).1 > 0
        · simp only [if_pos hp]
          exact ih ((lo + hi) / 2 + 1) hi (by omega) (by omega) hhi (by omega)
        · simp only [if_neg hp]
          exact ih lo ((lo + hi) / 2 - 1) h0 hlo (by omega) (by omega)
    · simp only [if_neg hlh]
      exact ⟨lo.toNat, false, rfl, by omega⟩

theorem searchLoop_found (es : List (Int × V)) (key : Int) :
    ∀ (fuel : Nat) (lo hi : Int) (i : Nat),
    searchLoop es key lo hi fuel = some (i, true) →
    ∃ v, es[i]? = some (key, v) := by
  intro fuel
  induction fuel with
  | zero => intro lo hi i h; simp [searchLoop] at h
  | succ f ih =>
    intro lo hi i h
    rw [searchLoop] at h
    by_cases hlh : lo ≤ hi
    · simp only [if_pos hlh] at h
      cases hg : es[((lo + hi) / 2).toNat]? with
      | none => rw [hg] at h; exact absurd h (by simp)
      | some e =>
        rw [hg] at h
        simp only at h
        by_cases hz : cmpZ key e.1 = 0
        · simp only [if_pos hz] at h
          have hpair := Option.some.inj h
          have hie : ((lo + hi) / 2).toNat = i := congrArg Prod.fst hpair
          have hk : key = e.1 := cmpZ_eq_zero.mp hz
          subst hie
          exact ⟨e.2, by rw [hg, hk, Prod.mk.eta]⟩
        · simp only [if_neg hz] at h
          by_cases hp : cmpZ key e.1 > 0
          · simp only [if_pos hp] at h; exact ih _ _ _ h
          · simp only [if_neg hp] at h; exact ih _ _ _ h
    · simp only [if_neg hlh] at h
      obtain ⟨_, hb⟩ := Prod.mk.inj (Option.some.inj h)
      exact absurd hb (by simp)

theorem searchLoop_notFound (es : List (Int × V)) (key : Int) (hs : sortedE es) :
    ∀ (fuel : Nat) (lo hi : Int) (i : Nat), 0 ≤ lo → hi < (es.length : Int) →
    (∀ (j : Nat) (e : Int × V), (j : Int) < lo → es[j]? = some e → e.1 < key) →
    (∀ (j : Nat) (e : Int × V), hi < (j : Int) → es[j]? = some e → key < e.1) →
    searchLoop es key lo hi fuel = some (i, false) →
    (∀ (j : Nat) (e : Int × V), j < i → es[j]? = some e → e.1 < key) ∧
    (∀ (j : Nat) (e : Int × V), i ≤ j → es[j]? = some e → key < e.1) := by
  have hget : ∀ (j : Nat) (e : Int × V), es[j]? = some e → ∃ h : j < es.length, es[j] = e := by
    intro j e hj; exact List.getElem?_eq_some.mp hj
  intro fuel
  induction fuel with
  | zero => intro lo hi i _ _ _ _ h; simp [searchLoop] at h
  | succ f ih =>
    intro lo hi i h0 hhi inv1 inv2 h
    rw [searchLoop] at h
    by_cases hlh : lo ≤ hi
    · simp only [if_pos hlh] at h
      have hmn : ((lo + hi) / 2).toNat < es.length := by omega
      rw [List.getElem?_eq_getElem hmn] at h
      simp only at h
      by_cases hz : cmpZ key (es[((lo + hi) / 2).toNat]).1 = 0
      · simp only [if_pos hz] at h
        obtain ⟨_, hb⟩ := Prod.mk.inj (Option.some.inj h)
        exact absurd hb (by simp)
      · simp only [if_neg hz] at h
        by_cases hp : cmpZ key (es[((lo + hi) / 2).toNat]).1 > 0
        · simp only [if_pos hp] at h
          have hek : (es[((lo + hi) / 2).toNat]).1 < key := cmpZ_pos.mp hp
          refine ih ((lo + hi) / 2 + 1) hi i (by omega) hhi ?_ inv2 h
          intro j ej hj hje
          obtain ⟨hjl, hjg⟩ := hget j ej hje
          by_cases hjm : j < ((lo + hi) / 2).toNat
          · have hrel := List.pairwise_iff_getElem.mp hs j (((lo + hi) / 2).toNat) hjl hmn hjm
            rw [hjg] at hrel
            exact lt_trans hrel hek
          · have hje2 : j = ((lo + hi) / 2).toNat := by omega
            subst hje2
            rw [← hjg]
            exact hek
        · simp only [if_neg hp] at h
          have hek : key < (es[((lo + hi) / 2).toNat]).1 := by
            rcases lt_trichotomy (cmpZ key (es[((lo + hi) / 2).toNat]).1) 0 with hlt | heq | hgt
            · exact cmpZ_neg.mp hlt
            · exact absurd heq hz
            · exact absurd hgt hp
          refine ih lo ((lo + hi) / 2 - 1) i h0 (by omega) inv1 ?_ h
          intro j ej hj hje
          obtain ⟨hjl, hjg⟩ := hget j ej hje
          by_cases hjm : ((lo + hi) / 2).toNat < j
          · have hrel := List.pairwise_iff_getElem.mp hs (((lo + hi) / 2).toNat) j hmn hjl hjm
            rw [hjg] at hrel
            exact lt_trans hek hrel
          · have hje2 : j = ((lo + hi) / 2).toNat := by omega
            subst hje2
            rw [← hjg]
            exact hek
    · simp only [if_neg hlh] at h
      obtain ⟨hi1, _⟩ := Prod.mk.inj (Option.some.inj h)
      subst hi1
      constructor
      · intro j ej hj hje; exact inv1 j ej (by omega) hje
      · intro j ej hj hje; exact inv2 j ej (by omega) hje

theorem search_total (es : List (Int × V)) (key : Int) :
    ∃ i b, search es key = some (i, b) ∧ i ≤ es.length := by
  exact searchLoop_total es key (es.length + 2) 0 ((es.length : Int) - 1)
    (by omega) (by omega) (by omega) (by omega)

theorem search_found {es : List (Int × V)} {key : Int} {i : Nat}
    (h : search es key = some (i, true)) : ∃ v, es[i]? = some (key, v) :=
  searchLoop_found es key _ _ _ _ h

theorem search_notFound {es : List (Int × V)} {key : Int} {i : Nat} (hs : sortedE es)
    (h : search es key = some (i, false)) :
    i ≤ es.length ∧
    (∀ (j : Nat) (e : Int × V), j < i → es[j]? = some e → e.1 < key) ∧
    (∀ (j : Nat) (e : Int × V), i ≤ j → es[j]? = some e → key < e.1) := by
  obtain ⟨i0, b0, h0, hb0⟩ := search_total es key
  have heq : (i0, b0) = (i, false) := Option.some.inj (h0.symm.trans h)
  obtain ⟨hi1, hb1⟩ := Prod.mk.inj heq
  refine ⟨hi1 ▸ hb0, ?_⟩
  exact searchLoop_notFound es key hs (es.length + 2) 0 ((es.length : Int) - 1) i
    (by omega) (by omega)
    (by intro j e hj _; omega)
    (by intro j e hj hje
        obtain ⟨hl, _⟩ := List.getElem?_eq_some.mp hje
        omega)
    h

theorem length_listInsertAt {xs : List α} {i : Nat} {a : α} (h : i ≤ xs.length) :
    (listInsertAt xs i a).length = xs.length + 1 := by
  simp [listInsertAt]
  omega

theorem getElem?_take_lt {xs : List α} {i j : Nat} (h : j < i) :
    (xs.take i)[j]? = xs[j]? := by
  rw [List.getElem?_take, if_pos h]

theorem getElem?_listInsertAt {xs : List α} {i : Nat} {a : α} (hle : i ≤ xs.length) (j : Nat) :
    (listInsertAt xs i a)[j]? =
      if j < i then xs[j]? else if j = i then some a else xs[j - 1]? := by
  unfold listInsertAt
  rw [List.getElem?_append]
  have hlen : (xs.take i).length = i := by rw [List.length_take]; omega
  rw [hlen]
  by_cases h1 : j < i
  · rw [if_pos h1, if_pos h1, getElem?_take_lt h1]
  · rw [if_neg h1, if_neg h1]
    by_cases h2 : j = i
    · subst h2
      rw [if_pos rfl, Nat.sub_self, List.getElem?_cons_zero]
    · rw [if_neg h2]
      have hji : j - i = (j - i - 1) + 1 := by omega
      rw [hji]
      simp only [List.getElem?_cons_succ]
      rw [List.getElem?_drop]
      congr 1
      omega

theorem mem_listInsertAt {xs : List α} {i : Nat} {a x : α} :
    x ∈ listInsertAt xs i a → x = a ∨ x ∈ xs := by
  intro h
  unfold listInsertAt at h
  rcases List.mem_append.mp h with h1 | h2
  · exact Or.inr (List.mem_of_mem_take h1)
  · rcases List.mem_cons.mp h2 with h3 | h4
    · exact Or.inl h3
    · exact Or.inr (List.mem_of_mem_drop h4)

/-- Inserting a key strictly between the keys below position `i` and those at
or above it keeps the element list strictly sorted. -/
theorem sortedE_listInsertAt {es : List (Int × V)} {i : Nat} {ele : Int × V}
    (hs : sortedE es) (hle : i ≤ es.length)
    (hlow : ∀ (j : Nat) (e : Int × V), j < i → es[j]? = some e → e.1 < ele.1)
    (hhigh : ∀ (j : Nat) (e : Int × V), i ≤ j → es[j]? = some e → ele.1 < e.1) :
    sortedE (listInsertAt es i ele) := by
  unfold sortedE listInsertAt
  rw [List.pairwise_append]
  have htake : sortedE (es.take i) := List.Pairwise.sublist (List.take_sublist i es) hs
  have hdrop : sortedE (es.drop i) := List.Pairwise.sublist (List.drop_sublist i es) hs
  have hdropkey : ∀ e ∈ es.drop i, ele.1 < e.1 := by
    intro e he
    obtain ⟨j, hj, hjg⟩ := List.getElem_of_mem he
    have hjb : i + j < es.length := by
      rw [List.length_drop] at hj
      omega
    rw [List.getElem_drop] at hjg
    refine hhigh (i + j) e (by omega) ?_
    rw [List.getElem?_eq_getElem hjb]
    exact congrArg some hjg
  have htakekey : ∀ x ∈ es.take i, x.1 < ele.1 := by
    intro x hx
    obtain ⟨j, hj, hjg⟩ := List.getElem_of_mem hx
    have hji : j < i := by
      rw [List.length_take] at hj
      omega
    have hjlen : j < es.length := by omega
    rw [List.getElem_take] at hjg
    refine hlow j x hji ?_
    rw [List.getElem?_eq_getElem hjlen]
    exact congrArg some hjg
  refine ⟨htake, ?_, ?_⟩
  · rw [List.pairwise_cons]
    exact ⟨hdropkey, hdrop⟩
  · intro x hx b hb
    have hxlt : x.1 < ele.1 := htakekey x hx
    rcases List.mem_cons.mp hb with h3 | h4
    · rw [h3]; exact hxlt
    · exact lt_trans hxlt (hdropkey b h4)

/-- Overwriting position `i` with an element of equal key preserves keys,
hence sortedness and ranges. -/
theorem getElem?_set_same_key {es : List (Int × V)} {i : Nat} (ele : Int × V) {e0 : Int × V}
    (hget : es[i]? = some e0) (hkey : e0.1 = ele.1) (j : Nat) :
    ((es.set i ele)[j]?).map Prod.fst = (es[j]?).map Prod.fst := by
  obtain ⟨hlen, hval⟩ := List.getElem?_eq_some.mp hget
  rw [List.getElem?_set]
  by_cases hij : i = j
  · subst hij
    rw [if_pos rfl, if_pos hlen, hget]
    simp only [Option.map_some']
    rw [hkey]
  · rw [if_neg hij]

theorem sortedE_set_same_key {es : List (Int × V)} {i : Nat} (ele : Int × V) {e0 : Int × V}
    (hs : sortedE es) (hget : es[i]? = some e0) (hkey : e0.1 = ele.1) :
    sortedE (es.set i ele) := by
  unfold sortedE at hs ⊢
  rw [List.pairwise_iff_getElem] at hs ⊢
  intro a b ha hb hab
  have hla : a < es.length := by simpa using ha
  have hlb : b < es.length := by simpa using hb
  have h1 := getElem?_set_same_key ele hget hkey a
  have h2 := getElem?_set_same_key ele hget hkey b
  rw [List.getElem?_eq_getElem ha, List.getElem?_eq_getElem hla] at h1
  rw [List.getElem?_eq_getElem hb, List.getElem?_eq_getElem hlb] at h2
  simp only [Option.map_some'] at h1 h2
  have := hs a b hla hlb hab
  have e1 : ((es.set i ele)[a]).1 = (es[a]).1 := Option.some.inj h1
  have e2 : ((es.set i ele)[b]).1 = (es[b]).1 := Option.some.inj h2
  rw [e1, e2]
  exact this

/-- A key inside a child's separator window also satisfies the node's own
outer bounds. -/
theorem range_sub {es : List (Int × V)} {lo hi : Option Int} {i : Nat} {k : Int}
    (hrange : ∀ e ∈ es, inRange lo hi e.1) (hile : i ≤ es.length)
    (hin : inRange (boundL es lo i) (boundR es hi i) k) :
    inRange lo hi k := by
  obtain ⟨hl, hr⟩ := hin
  constructor
  · intro a ha
    by_cases h0 : i = 0
    · exact hl a (by rwa [boundL, if_pos h0])
    · cases hg : es[i - 1]? with
      | none =>
        exfalso
        have := List.getElem?_eq_none_iff.mp hg
        omega
      | some e =>
        have he : e ∈ es := by
          obtain ⟨hlt, hv⟩ := List.getElem?_eq_some.mp hg
          exact hv ▸ List.getElem_mem hlt
        have h1 : a < e.1 := (hrange e he).1 a ha
        have h2 : e.1 < k := by
          refine hl e.1 ?_
          rw [boundL, if_neg h0, hg]
          rfl
        exact lt_trans h1 h2
  · intro b hb
    cases hg : es[i]? with
    | none =>
      refine hr b ?_
      rw [boundR, hg]
      exact hb
    | some e =>
      have he : e ∈ es := by
        obtain ⟨hlt, hv⟩ := List.getElem?_eq_some.mp hg
        exact hv ▸ List.getElem_mem hlt
      have h1 : k < e.1 := by
        refine hr e.1 ?_
        rw [boundR, hg]
        rfl
      exact lt_trans h1 ((hrange e he).2 b hb)

/-- On a sorted list, a position whose left neighbours are strictly below `k`
and whose right neighbours are strictly above `k` is exactly what `search`
returns, with `found = false`. -/
theorem search_position_unique {es : List (Int × V)} {k : Int} {i0 : Nat}
    (hs : sortedE es) (hle : i0 ≤ es.length)
    (hlow : ∀ (j : Nat) (e : Int × V), j < i0 → es[j]? = some e → e.1 < k)
    (hhigh : ∀ (j : Nat) (e : Int × V), i0 ≤ j → es[j]? = some e → k < e.1) :
    search es k = some (i0, false) := by
  obtain ⟨i, b, hsr, hib⟩ := search_total es k
  cases b with
  | true =>
    obtain ⟨v, hv⟩ := search_found hsr
    by_cases hii : i < i0
    · have := hlow i (k, v) hii hv
      simp at this
    · have := hhigh i (k, v) (by omega) hv
      simp at this
  | false =>
    obtain ⟨_, hA, hB⟩ := search_notFound hs hsr
    have : i = i0 := by
      by_cases hii : i < i0
      · have h1 : i < es.length := by omega
        have h2 := hB i es[i] (le_refl i) (List.getElem?_eq_getElem h1)
        have h3 := hlow i es[i] hii (List.getElem?_eq_getElem h1)
        omega
      · by_cases hii2 : i0 < i
        · have h1 : i0 < es.length := by omega
          have h2 := hA i0 es[i0] hii2 (List.getElem?_eq_getElem h1)
          have h3 := hhigh i0 es[i0] (le_refl i0) (List.getElem?_eq_getElem h1)
          omega
        · omega
    rwa [this] at hsr

@[simp] theorem elements_mk (es : List (Int × V)) (cs : List (GoNode V)) :
    (GoNode.mk es cs).elements = es := rfl

@[simp] theorem children_mk (es : List (Int × V)) (cs : List (GoNode V)) :
    (GoNode.mk es cs).children = cs := rfl

theorem mem_take_lt_pivot {es : List (Int × V)} (hs : sortedE es) {mid : Nat} {p : Int × V}
    (hp : es[mid]? = some p) : ∀ e ∈ es.take mid, e.1 < p.1 := by
  intro e he
  obtain ⟨hmlen, hmv⟩ := List.getElem?_eq_some.mp hp
  obtain ⟨j, hj, hjg⟩ := List.getElem_of_mem he
  have hji : j < mid := by rw [List.length_take] at hj; omega
  rw [List.getElem_take] at hjg
  have := List.pairwise_iff_getElem.mp hs j mid (by omega) hmlen hji
  rw [hjg, hmv] at this
  exact this

theorem mem_drop_gt_pivot {es : List (Int × V)} (hs : sortedE es) {mid : Nat} {p : Int × V}
    (hp : es[mid]? = some p) : ∀ e ∈ es.drop (mid + 1), p.1 < e.1 := by
  intro e he
  obtain ⟨hmlen, hmv⟩ := List.getElem?_eq_some.mp hp
  obtain ⟨j, hj, hjg⟩ := List.getElem_of_mem he
  have hjb : mid + 1 + j < es.length := by rw [List.length_drop] at hj; omega
  rw [List.getElem_drop] at hjg
  have := List.pairwise_iff_getElem.mp hs mid (mid + 1 + j) hmlen hjb (by omega)
  rw [hjg, hmv] at this
  exact this

/-- Lemma: `splitParts` succeeds on an overflowing node satisfying the invariant and
yields halves that satisfy it on either side of the promoted key. -/
theorem splitParts_bt {m : Nat} {n : GoNode V} {lo hi : Option Int} {h : Nat}
    (hm : 2 ≤ m) (hbt : BT n lo hi h) (hover : m ≤ n.elements.length) :
    ∃ l p r, splitParts m n = some (l, p, r) ∧
      BT l lo (some p.1) h ∧ BT r (some p.1) hi h ∧ inRange lo hi p.1 := by
  have hmid1 : (m - 1) / 2 + 1 ≤ m := by omega
  cases hbt with
  | leaf es lo hi hsort hrange =>
    simp only [elements_mk] at hover
    have hmlen : (m - 1) / 2 < es.length := by omega
    refine ⟨⟨es.take ((m - 1) / 2), []⟩, es[(m - 1) / 2],
            ⟨es.drop ((m - 1) / 2 + 1), []⟩, ?_, ?_, ?_, ?_⟩
    · rw [splitParts]
      simp only [elements_mk, children_mk, List.getElem?_eq_getElem hmlen]
      simp
    · refine BT.leaf _ _ _ (List.Pairwise.sublist (List.take_sublist _ es) hsort) ?_
      intro e he
      refine ⟨fun a ha => (hrange e (List.mem_of_mem_take he)).1 a ha, ?_⟩
      intro b hb
      obtain rfl : b = (es[(m - 1) / 2]).1 := by simpa using hb.symm
      exact mem_take_lt_pivot hsort (List.getElem?_eq_getElem hmlen) e he
    · refine BT.leaf _ _ _ (List.Pairwise.sublist (List.drop_sublist _ es) hsort) ?_
      intro e he
      refine ⟨?_, fun b hb => (hrange e (List.mem_of_mem_drop he)).2 b hb⟩
      intro a ha
      obtain rfl : a = (es[(m - 1) / 2]).1 := by simpa using ha.symm
      exact mem_drop_gt_pivot hsort (List.getElem?_eq_getElem hmlen) e he
    · exact hrange _ (List.getElem_mem hmlen)
  | node es cs lo hi hh hne hcount hsort hrange hkids =>
    simp only [elements_mk] at hover
    have hmlen : (m - 1) / 2 < es.length := by omega
    have hcsne : ¬cs.isEmpty := by
      cases cs with
      | nil => exact absurd rfl hne
      | cons a l => simp
    have hcslen : ¬(cs.length < (m - 1) / 2 + 1) := by omega
    refine ⟨⟨es.take ((m - 1) / 2), cs.take ((m - 1) / 2 + 1)⟩, es[(m - 1) / 2],
            ⟨es.drop ((m - 1) / 2 + 1), cs.drop ((m - 1) / 2 + 1)⟩, ?_, ?_, ?_, ?_⟩
    · rw [splitParts]
      simp only [elements_mk, children_mk, List.getElem?_eq_getElem hmlen]
      rw [if_neg (by simpa using hcsne), if_neg hcslen]
    · -- the left half is an internal node over children 0 .. mid
      have hlc : (cs.take ((m - 1) / 2 + 1)).length = (m - 1) / 2 + 1 := by
        rw [List.length_take]; omega
      have hle : (es.take ((m - 1) / 2)).length = (m - 1) / 2 := by
        rw [List.length_take]; omega
      refine BT.node _ _ _ _ _ (by rw [← List.length_pos_iff_ne_nil]; omega) (by omega)
        (List.Pairwise.sublist (List.take_sublist _ es) hsort) ?_ ?_
      · intro e he
        refine ⟨fun a ha => (hrange e (List.mem_of_mem_take he)).1 a ha, ?_⟩
        intro b hb
        obtain rfl : b = (es[(m - 1) / 2]).1 := by simpa using hb.symm
        exact mem_take_lt_pivot hsort (List.getElem?_eq_getElem hmlen) e he
      · intro i hic
        rw [hlc] at hic
        have hicc : i < cs.length := by omega
        have hgi : (cs.take ((m - 1) / 2 + 1))[i] = cs[i] := List.getElem_take _
        rw [hgi]
        have hbl : boundL (es.take ((m - 1) / 2)) lo i = boundL es lo i := by
          unfold boundL
          by_cases h0 : i = 0
          · rw [if_pos h0, if_pos h0]
          · rw [if_neg h0, if_neg h0, getElem?_take_lt (by omega)]
        have hbr : boundR (es.take ((m - 1) / 2)) (some (es[(m - 1) / 2]).1) i =
            boundR es hi i := by
          unfold boundR
          by_cases hlt : i < (m - 1) / 2
          · rw [getElem?_take_lt hlt, List.getElem?_eq_getElem (by omega : i < es.length)]
            rfl
          · have hieq : i = (m - 1) / 2 := by omega
            subst hieq
            rw [List.getElem?_take, if_neg (by omega), List.getElem?_eq_getElem hmlen]
            rfl
        rw [hbl, hbr]
        exact hkids i hicc
    · -- the right half is an internal node over children mid+1 .. end
      have hrc : (cs.drop ((m - 1) / 2 + 1)).length = cs.length - ((m - 1) / 2 + 1) := by
        rw [List.length_drop]
      have hre : (es.drop ((m - 1) / 2 + 1)).length = es.length - ((m - 1) / 2 + 1) := by
        rw [List.length_drop]
      refine BT.node _ _ _ _ _ (by rw [← List.length_pos_iff_ne_nil]; omega) (by omega)
        (List.Pairwise.sublist (List.drop_sublist _ es) hsort) ?_ ?_
      · intro e he
        refine ⟨?_, fun b hb => (hrange e (List.mem_of_mem_drop he)).2 b hb⟩
        intro a ha
        obtain rfl : a = (es[(m - 1) / 2]).1 := by simpa using ha.symm
        exact mem_drop_gt_pivot hsort (List.getElem?_eq_getElem hmlen) e he
      · intro i hic
        rw [hrc] at hic
        have hicc : (m - 1) / 2 + 1 + i < cs.length := by omega
        have hgi : (cs.drop ((m - 1) / 2 + 1))[i] = cs[(m - 1) / 2 + 1 + i] := by
          rw [List.getElem_drop]
        rw [hgi]
        have hbl : boundL (es.drop ((m - 1) / 2 + 1)) (some (es[(m - 1) / 2]).1) i =
            boundL es lo ((m - 1) / 2 + 1 + i) := by
          unfold boundL
          by_cases h0 : i = 0
          · subst h0
            rw [if_pos rfl, if_neg (by omega)]
            rw [(by omega : (m - 1) / 2 + 1 + 0 - 1 = (m - 1) / 2)]
            rw [List.getElem?_eq_getElem hmlen]
            rfl
          · rw [if_neg h0, if_neg (by omega)]
            rw [(by omega : (m - 1) / 2 + 1 + i - 1 = (m - 1) / 2 + 1 + (i - 1))]
            rw [List.getElem?_drop]
        have hbr : boundR (es.drop ((m - 1) / 2 + 1)) hi i =
            boundR es hi ((m - 1) / 2 + 1 + i) := by
          unfold boundR
          rw [List.getElem?_drop]
        rw [hbl, hbr]
        exact hkids ((m - 1) / 2 + 1 + i) hicc
    · exact hrange _ (List.getElem_mem hmlen)

theorem attach_getElem? {l : List α} {i : Nat} (h : i < l.length) :
    l.attach[i]? = some ⟨l[i], List.getElem_mem h⟩ := by
  have hl : i < l.attach.length := by simpa using h
  rw [List.getElem?_eq_getElem hl]
  congr 1
  apply Subtype.ext
  simp

/-- Lemma: `insertIntoLeaf` succeeds on an invariant-satisfying leaf whose window
admits the new key, and preserves the invariant (the result may exceed the
`m-1` capacity by one; the caller splits it). -/
theorem insertIntoLeaf_bt {es : List (Int × V)} {lo hi : Option Int} {ele : Int × V}
    (hsort : sortedE es) (hrange : ∀ e ∈ es, inRange lo hi e.1)
    (hin : inRange lo hi ele.1) :
    ∃ n' b, insertIntoLeaf (GoNode.mk es []) ele = some (n', b) ∧ BT n' lo hi 0 := by
  obtain ⟨ipos, b, hsr, hib⟩ := search_total es ele.1
  rw [insertIntoLeaf]
  simp only [elements_mk, children_mk]
  rw [hsr]
  cases b with
  | true =>
    obtain ⟨v, hv⟩ := search_found hsr
    obtain ⟨hlt, _⟩ := List.getElem?_eq_some.mp hv
    simp only [if_pos hlt]
    refine ⟨_, _, rfl, ?_⟩
    refine BT.leaf _ _ _ (sortedE_set_same_key ele hsort hv rfl) ?_
    intro e he
    rcases List.mem_or_eq_of_mem_set he with h1 | h2
    · exact hrange e h1
    · subst h2; exact hin
  | false =>
    obtain ⟨_, hA, hB⟩ := search_notFound hsort hsr
    simp only [if_pos hib]
    refine ⟨_, _, rfl, ?_⟩
    refine BT.leaf _ _ _ (sortedE_listInsertAt hsort hib hA hB) ?_
    intro e he
    rcases mem_listInsertAt he with h1 | h2
    · subst h1; exact hin
    · exact hrange e h2

/-- The key preservation theorem for `insert`: on a subtree satisfying the
invariant whose window admits the key, `insert` succeeds and preserves the
invariant, bounds and height (the returned node may hold one element over
capacity; the caller splits it). -/
theorem insert_bt {m : Nat} (hm : 2 ≤ m) (ele : Int × V)
    {n : GoNode V} {lo hi : Option Int} {h : Nat} (hbt : BT n lo hi h) :
    inRange lo hi ele.1 →
    ∃ n' b, insert m n ele = some (n', b) ∧ BT n' lo hi h := by
  induction hbt with
  | leaf es lo hi hsort hrange =>
    intro hin
    rw [insert]
    simp only [children_mk, List.isEmpty_nil, if_true]
    exact insertIntoLeaf_bt hsort hrange hin
  | node es cs lo hi hc hne hcount hsort hrange hkids ih =>
    intro hin
    rw [insert]
    have hcsie : cs.isEmpty = false := by
      cases cs with
      | nil => exact absurd rfl hne
      | cons a l => rfl
    simp only [children_mk, hcsie, Bool.false_eq_true, if_false]
    rw [insertIntoChildren]
    simp only [elements_mk, children_mk]
    obtain ⟨ipos, b, hsr, hib⟩ := search_total es ele.1
    rw [hsr]
    cases b with
    | true =>
      obtain ⟨v, hv⟩ := search_found hsr
      obtain ⟨hlt, _⟩ := List.getElem?_eq_some.mp hv
      simp only [if_pos hlt]
      refine ⟨_, _, rfl, ?_⟩
      refine BT.node _ _ _ _ _ hne (by rw [List.length_set]; exact hcount)
        (sortedE_set_same_key ele hsort hv rfl) ?_ ?_
      · intro e he
        rcases List.mem_or_eq_of_mem_set he with h1 | h2
        · exact hrange e h1
        · subst h2; exact hin
      · intro i hic
        have hbl : boundL (es.set ipos ele) lo i = boundL es lo i := by
          unfold boundL
          by_cases h0 : i = 0
          · rw [if_pos h0, if_pos h0]
          · rw [if_neg h0, if_neg h0, getElem?_set_same_key ele hv rfl]
        have hbr : boundR (es.set ipos ele) hi i = boundR es hi i := by
          unfold boundR
          rw [getElem?_set_same_key ele hv rfl]
        rw [hbl, hbr]
        exact hkids i hic
    | false =>
      obtain ⟨_, hA, hB⟩ := search_notFound hsort hsr
      have hiposc : ipos < cs.length := by omega
      have hinc : inRange (boundL es lo ipos) (boundR es hi ipos) ele.1 := by
        constructor
        · intro a ha
          unfold boundL at ha
          by_cases h0 : ipos = 0
          · rw [if_pos h0] at ha
            exact hin.1 a ha
          · rw [if_neg h0] at ha
            have hp1 : ipos - 1 < es.length := by omega
            rw [List.getElem?_eq_getElem hp1] at ha
            obtain rfl : a = (es[ipos - 1]).1 := by simpa using ha.symm
            exact hA (ipos - 1) _ (by omega) (List.getElem?_eq_getElem hp1)
        · intro bb hbb
          unfold boundR at hbb
          cases hg : es[ipos]? with
          | none =>
            rw [hg] at hbb
            exact hin.2 bb hbb
          | some e =>
            rw [hg] at hbb
            obtain rfl : bb = e.1 := by simpa using hbb.symm
            exact hB ipos e (le_refl ipos) hg
      obtain ⟨c', added, hcins, hbtc'⟩ := ih ipos hiposc hinc
      simp only [Bool.false_eq_true, if_false, attach_getElem? hiposc, hcins]
      by_cases hsp : shouldSplit m c' = true
      · rw [if_pos hsp]
        have hover : m ≤ c'.elements.length := by
          have := of_decide_eq_true hsp
          omega
        obtain ⟨l, p, r, hspr, hbtl, hbtr, hpin⟩ := splitParts_bt hm hbtc' hover
        -- the promoted key lies strictly between es[ipos-1] and es[ipos],
        -- so the re-search of this node finds exactly position ipos
        have hplow : ∀ (j : Nat) (e : Int × V), j < ipos → es[j]? = some e → e.1 < p.1 := by
          intro j e hj hje
          obtain ⟨hjl, hjg2⟩ := List.getElem?_eq_some.mp hje
          have hp1 : ipos - 1 < es.length := by omega
          have hlast : (es[ipos - 1]).1 < p.1 := by
            refine hpin.1 (es[ipos - 1]).1 ?_
            unfold boundL
            rw [if_neg (by omega), List.getElem?_eq_getElem hp1]
            rfl
          by_cases hj2 : j = ipos - 1
          · subst hj2
            rw [← hjg2]
            exact hlast
          · have hrel := List.pairwise_iff_getElem.mp hsort j (ipos - 1) hjl hp1 (by omega)
            rw [hjg2] at hrel
            exact lt_trans hrel hlast
        have hphigh : ∀ (j : Nat) (e : Int × V), ipos ≤ j → es[j]? = some e → p.1 < e.1 := by
          intro j e hj hje
          obtain ⟨hjl, hjg2⟩ := List.getElem?_eq_some.mp hje
          have hp0 : ipos < es.length := by omega
          have hfirst : p.1 < (es[ipos]).1 := by
            refine hpin.2 (es[ipos]).1 ?_
            unfold boundR
            rw [List.getElem?_eq_getElem hp0]
            rfl
          by_cases hj2 : j = ipos
          · subst hj2
            rw [← hjg2]
            exact hfirst
          · have hrel := List.pairwise_iff_getElem.mp hsort ipos j hp0 hjl (by omega)
            rw [hjg2] at hrel
            exact lt_trans hfirst hrel
        have hppos : search es p.1 = some (ipos, false) :=
          search_position_unique hsort hib hplow hphigh
        simp only [hspr, hppos]
        have hsetlen : (cs.set ipos c').length = cs.length := List.length_set cs ipos c'
        rw [if_pos (by rw [hsetlen]; exact ⟨hib, hiposc⟩)]
        refine ⟨_, _, rfl, ?_⟩
        rw [List.set_set]
        have hnel : (listInsertAt es ipos p).length = es.length + 1 :=
          length_listInsertAt hib
        have hncl : (listInsertAt (cs.set ipos l) (ipos + 1) r).length = cs.length + 1 := by
          rw [length_listInsertAt (by rw [List.length_set]; omega), List.length_set]
        refine BT.node _ _ _ _ _ (by rw [← List.length_pos_iff_ne_nil]; omega) (by omega)
          (sortedE_listInsertAt hsort hib hplow hphigh) ?_ ?_
        · intro e he
          rcases mem_listInsertAt he with h1 | h2
          · subst h1
            exact range_sub hrange hib hpin
          · exact hrange e h2
        · intro i hic
          rw [hncl] at hic
          have hnewes : ∀ (j : Nat), (listInsertAt es ipos p)[j]? =
              if j < ipos then es[j]? else if j = ipos then some p else es[j - 1]? :=
            getElem?_listInsertAt hib
          have hnewcs : ∀ (j : Nat), (listInsertAt (cs.set ipos l) (ipos + 1) r)[j]? =
              if j < ipos + 1 then (cs.set ipos l)[j]?
              else if j = ipos + 1 then some r else (cs.set ipos l)[j - 1]? :=
            getElem?_listInsertAt (by rw [List.length_set]; omega)
          -- identify child i of the post-split node and its separator window
          by_cases hi1 : i < ipos
          · have hgc : (listInsertAt (cs.set ipos l) (ipos + 1) r)[i]? = some cs[i] := by
              rw [hnewcs i, if_pos (by omega), List.getElem?_set, if_neg (by omega)]
              exact List.getElem?_eq_getElem (by omega)
            obtain ⟨hgl, hge⟩ := List.getElem?_eq_some.mp hgc
            rw [hge]
            have hbl : boundL (listInsertAt es ipos p) lo i = boundL es lo i := by
              unfold boundL
              by_cases h0 : i = 0
              · rw [if_pos h0, if_pos h0]
              · rw [if_neg h0, if_neg h0, hnewes (i - 1), if_pos (by omega)]
            have hbr : boundR (listInsertAt es ipos p) hi i = boundR es hi i := by
              unfold boundR
              rw [hnewes i, if_pos hi1]
            rw [hbl, hbr]
            exact hkids i (by omega)
          · by_cases hi2 : i = ipos
            · have hgc : (listInsertAt (cs.set ipos l) (ipos + 1) r)[i]? = some l := by
                rw [hnewcs i, if_pos (by omega), List.getElem?_set, if_pos hi2.symm]
                rw [if_pos (by omega)]
              obtain ⟨hgl, hge⟩ := List.getElem?_eq_some.mp hgc
              rw [hge]
              have hbl : boundL (listInsertAt es ipos p) lo i = boundL es lo i := by
                unfold boundL
                by_cases h0 : i = 0
                · rw [if_pos h0, if_pos h0]
                · rw [if_neg h0, if_neg h0, hnewes (i - 1), if_pos (by omega)]
              have hbr : boundR (listInsertAt es ipos p) hi i = some p.1 := by
                unfold boundR
                rw [hnewes i, if_neg (by omega), if_pos hi2]
                rfl
              rw [hbl, hbr, hi2]
              exact hbtl
            · by_cases hi3 : i = ipos + 1
              · subst hi3
                have hgc : (listInsertAt (cs.set ipos l) (ipos + 1) r)[ipos + 1]? =
                    some r := by
                  rw [hnewcs (ipos + 1), if_neg (by omega), if_pos rfl]
                obtain ⟨hgl, hge⟩ := List.getElem?_eq_some.mp hgc
                rw [hge]
                have hbl : boundL (listInsertAt es ipos p) lo (ipos + 1) = some p.1 := by
                  unfold boundL
                  rw [if_neg (by omega)]
                  have : ipos + 1 - 1 = ipos := by omega
                  rw [this, hnewes ipos, if_neg (by omega), if_pos rfl]
                  rfl
                have hbr : boundR (listInsertAt es ipos p) hi (ipos + 1) =
                    boundR es hi ipos := by
                  unfold boundR
                  rw [hnewes (ipos + 1), if_neg (by omega), if_neg (by omega)]
                  have : ipos + 1 - 1 = ipos := by omega
                  rw [this]
                rw [hbl, hbr]
                exact hbtr
              · -- i ≥ ipos + 2: the old child i - 1, with shifted separators
                have hgc : (listInsertAt (cs.set ipos l) (ipos + 1) r)[i]? =
                    some cs[i - 1] := by
                  rw [hnewcs i, if_neg (by omega), if_neg hi3, List.getElem?_set,
                    if_neg (by omega)]
                  exact List.getElem?_eq_getElem (by omega)
                obtain ⟨hgl, hge⟩ := List.getElem?_eq_some.mp hgc
                rw [hge]
                have hbl : boundL (listInsertAt es ipos p) lo i = boundL es lo (i - 1) := by
                  unfold boundL
                  rw [if_neg (by omega), if_neg (by omega)]
                  rw [hnewes (i - 1), if_neg (by omega), if_neg (by omega)]
                have hbr : boundR (listInsertAt es ipos p) hi i = boundR es hi (i - 1) := by
                  unfold boundR
                  rw [hnewes i, if_neg (by omega), if_neg (by omega)]
                rw [hbl, hbr]
                exact hkids (i - 1) (by omega)
      · rw [if_neg hsp]
        refine ⟨_, _, rfl, ?_⟩
        refine BT.node _ _ _ _ _ (by
            rw [← List.length_pos_iff_ne_nil, List.length_set]
            omega)
          (by rw [List.length_set]; exact hcount) hsort hrange ?_
        intro i hic
        rw [List.length_set] at hic
        have hgs : (cs.set ipos c')[i] = if ipos = i then c' else cs[i] :=
          List.getElem_set (by rw [List.length_set]; exact hic)
        by_cases hieq : ipos = i
        · rw [hgs, if_pos hieq]
          subst hieq
          exact hbtc'
        · rw [hgs, if_neg hieq]
          exact hkids i hic

theorem inRange_none (k : Int) : inRange (none : Option Int) none k := by
  constructor
  · intro a ha; simp at ha
  · intro b hb; simp at hb

/-- Lemma: `Put` always succeeds on an invariant-satisfying tree and preserves the
invariant and the branching factor. -/
theorem put_bt {t : GoTree V} (hm : 2 ≤ t.m) (ht : TInv t) (k : Int) (v : V) :
    ∃ t', put t k v = some t' ∧ TInv t' ∧ t'.m = t.m := by
  rw [put]
  cases hr : t.root with
  | none =>
    refine ⟨_, rfl, ⟨?_, ?_⟩, rfl⟩
    · intro hn; simp at hn
    · intro r hr2
      simp only [Option.some.injEq] at hr2
      refine ⟨⟨0, ?_⟩, by simp⟩
      rw [← hr2]
      refine BT.leaf _ _ _ ?_ ?_
      · unfold sortedE; simp
      · intro e he
        simp only [List.mem_singleton] at he
        subst he
        exact inRange_none k
  | some r =>
    obtain ⟨⟨h, hbt⟩, hsz⟩ := ht.2 r hr
    obtain ⟨r', b, hins, hbt'⟩ := insert_bt hm (k, v) hbt (inRange_none k)
    simp only [hins]
    by_cases hsp : shouldSplit t.m r' = true
    · rw [if_pos hsp]
      have hover : t.m ≤ r'.elements.length := by
        have := of_decide_eq_true hsp
        omega
      obtain ⟨l, p, rr, hspr, hbtl, hbtr, hpin⟩ := splitParts_bt hm hbt' hover
      simp only [hspr]
      refine ⟨_, rfl, ⟨?_, ?_⟩, rfl⟩
      · intro hn; simp at hn
      · intro r2 hr2
        simp only [Option.some.injEq] at hr2
        constructor
        · refine ⟨h + 1, ?_⟩
          rw [← hr2]
          refine BT.node [p] [l, rr] none none h (by simp) (by simp) ?_ ?_ ?_
          · unfold sortedE; simp
          · intro e he
            simp only [List.mem_singleton] at he
            rw [he]
            exact inRange_none p.1
          · intro i hic
            simp only [List.length_cons, List.length_singleton] at hic
            match i, hic with
            | 0, _ =>
              have hb1 : boundL [p] (none : Option Int) 0 = none := rfl
              have hb2 : boundR ([p] : List (Int × V)) (none : Option Int) 0 = some p.1 := rfl
              rw [show ([l, rr] : List (GoNode V))[0] = l from rfl, hb1, hb2]
              exact hbtl
            | 1, _ =>
              have hb1 : boundL [p] (none : Option Int) 1 = some p.1 := rfl
              have hb2 : boundR ([p] : List (Int × V)) (none : Option Int) 1 = none := rfl
              rw [show ([l, rr] : List (GoNode V))[1] = rr from rfl, hb1, hb2]
              exact hbtr
        · cases b <;> simp <;> omega
    · rw [if_neg hsp]
      refine ⟨_, rfl, ⟨?_, ?_⟩, rfl⟩
      · intro hn; simp at hn
      · intro r2 hr2
        simp only [Option.some.injEq] at hr2
        refine ⟨⟨h, hr2 ▸ hbt'⟩, ?_⟩
        cases b <;> simp <;> omega

/-- Lemma: `searchRecursive` never goes out of bounds on an invariant-satisfying
subtree. -/
theorem searchRec_total {n : GoNode V} {lo hi : Option Int} {h : Nat}
    (hbt : BT n lo hi h) (k : Int) : (searchRec n k).isSome := by
  induction hbt with
  | leaf es lo hi hsort hrange =>
    rw [searchRec]
    simp only [elements_mk, children_mk]
    obtain ⟨i, b, hsr, hib⟩ := search_total es k
    rw [hsr]
    cases b with
    | true =>
      obtain ⟨v, hv⟩ := search_found hsr
      simp [hv]
    | false => simp
  | node es cs lo hi hc hne hcount hsort hrange hkids ih =>
    rw [searchRec]
    simp only [elements_mk, children_mk]
    obtain ⟨i, b, hsr, hib⟩ := search_total es k
    rw [hsr]
    cases b with
    | true =>
      obtain ⟨v, hv⟩ := search_found hsr
      simp [hv]
    | false =>
      have hic : i < cs.length := by omega
      have hcsie : cs.isEmpty = false := by
        cases cs with
        | nil => exact absurd rfl hne
        | cons a l => rfl
      simp only [Bool.false_eq_true, if_false, hcsie, attach_getElem? hic]
      exact ih i hic

/-- Lemma: `Get` never goes out of bounds on an invariant-satisfying tree. -/
theorem get_total {t : GoTree V} (ht : TInv t) (k : Int) : (get t k).isSome := by
  rw [get]
  cases hr : t.root with
  | none => simp
  | some r =>
    by_cases hz : t.size = 0
    · simp [hz]
    · obtain ⟨⟨h, hbt⟩, _⟩ := ht.2 r hr
      simp only [if_neg hz]
      exact searchRec_total hbt k

theorem treeNew_tinv : TInv (treeNew V m) := by
  constructor
  · intro _; rfl
  · intro r hr; simp [treeNew] at hr

theorem clear_tinv (t : GoTree V) : TInv (clear t) := by
  constructor
  · intro _; rfl
  · intro r hr; simp [clear] at hr

/-- Any `Put` sequence from `New(m)` (with `m ≥ 2`) builds successfully and
the result satisfies the tree invariant. -/
theorem buildPuts_inv (m : Nat) (hm : 2 ≤ m) (ps : List (Int × V)) :
    ∃ t, buildPuts m ps = some t ∧ TInv t ∧ t.m = m := by
  suffices hstep : ∀ (t0 : GoTree V), TInv t0 → t0.m = m →
      ∃ t, ps.foldlM (fun t p => put t p.1 p.2) t0 = some t ∧ TInv t ∧ t.m = m by
    exact hstep (treeNew V m) treeNew_tinv rfl
  induction ps with
  | nil => intro t0 h0 hm0; exact ⟨t0, rfl, h0, hm0⟩
  | cons p rest ih =>
    intro t0 h0 hm0
    rw [List.foldlM_cons]
    obtain ⟨t1, hp, ht1, hm1⟩ := put_bt (show 2 ≤ t0.m by omega) h0 p.1 p.2
    rw [hp]
    simpa using ih t1 ht1 (by omega)

/-- Any `Put`/`Clear` sequence from `New(m)` (with `m ≥ 2`) runs successfully
and the result satisfies the tree invariant. -/
theorem buildOps_inv (m : Nat) (hm : 2 ≤ m) (ops : List (OpT V)) :
    ∃ t, buildOps m ops = some t ∧ TInv t ∧ t.m = m := by
  suffices hstep : ∀ (t0 : GoTree V), TInv t0 → t0.m = m →
      ∃ t, ops.foldlM applyOp t0 = some t ∧ TInv t ∧ t.m = m by
    exact hstep (treeNew V m) treeNew_tinv rfl
  induction ops with
  | nil => intro t0 h0 hm0; exact ⟨t0, rfl, h0, hm0⟩
  | cons op rest ih =>
    intro t0 h0 hm0
    rw [List.foldlM_cons]
    cases op with
    | opPut k v =>
      obtain ⟨t1, hp, ht1, hm1⟩ := put_bt (show 2 ≤ t0.m by omega) h0 k v
      simp only [applyOp, hp]
      simpa using ih t1 ht1 (by omega)
    | opClear =>
      simp only [applyOp]
      simpa using ih (clear t0) (clear_tinv t0) (by simp [clear]; omega)

theorem mem_nodesList_iff {x : GoNode V} {es : List (Int × V)} {cs : List (GoNode V)} :
    x ∈ nodesList (GoNode.mk es cs) ↔
      x = GoNode.mk es cs ∨ ∃ c ∈ cs, x ∈ nodesList c := by
  rw [nodesList]
  simp [List.mem_flatMap, List.mem_attach, Subtype.exists]

theorem self_mem_nodesList (n : GoNode V) : n ∈ nodesList n := by
  cases n with
  | mk es cs => exact mem_nodesList_iff.mpr (Or.inl rfl)

/-- Every node reachable in an invariant-satisfying subtree is strictly
sorted and has the B-tree child count. -/
theorem BT_nodes_wf {n : GoNode V} {lo hi : Option Int} {h : Nat} (hbt : BT n lo hi h) :
    ∀ x ∈ nodesList n,
      sortedE x.elements ∧ (x.children = [] ∨ x.children.length = x.elements.length + 1) := by
  induction hbt with
  | leaf es lo hi hsort hrange =>
    intro x hx
    rcases mem_nodesList_iff.mp hx with h1 | ⟨c, hc, _⟩
    · subst h1
      exact ⟨hsort, Or.inl rfl⟩
    · simp at hc
  | node es cs lo hi hc hne hcount hsort hrange hkids ih =>
    intro x hx
    rcases mem_nodesList_iff.mp hx with h1 | ⟨c, hcm, hxc⟩
    · subst h1
      exact ⟨hsort, Or.inr hcount⟩
    · obtain ⟨i, hi, hig⟩ := List.getElem_of_mem hcm
      exact ih i hi x (hig ▸ hxc)

/-- Every leaf of an invariant-satisfying subtree lies at depth exactly `h`. -/
theorem BT_leafDepths {n : GoNode V} {lo hi : Option Int} {h : Nat} (hbt : BT n lo hi h) :
    ∀ d ∈ leafDepths n, d = h := by
  induction hbt with
  | leaf es lo hi hsort hrange =>
    intro d hd
    rw [leafDepths] at hd
    simp at hd
    exact hd
  | node es cs lo hi hc hne hcount hsort hrange hkids ih =>
    intro d hd
    rw [leafDepths] at hd
    have hcsie : cs.isEmpty = false := by
      cases cs with
      | nil => exact absurd rfl hne
      | cons a l => rfl
    rw [hcsie] at hd
    simp only [Bool.false_eq_true, if_false, List.mem_flatMap, List.mem_attach,
      List.mem_map, Subtype.exists, true_and] at hd
    obtain ⟨c, hcm, d0, hd0, hdd⟩ := hd
    obtain ⟨i, hi, hig⟩ := List.getElem_of_mem hcm
    have := ih i hi d0 (hig ▸ hd0)
    omega

end NT

namespace Imp

variable {V : Type}

/-- Lemma: `writeSlot` changes only the element buffers. -/
theorem writeSlot_eff {st : StI V} {s : Sl} {i : Nat} {x : Option (El V)} {st' : StI V}
    (h : writeSlot st s i x = some st') :
    st'.nodes = st.nodes ∧ st'.root = st.root ∧ st'.m = st.m := by
  unfold writeSlot at h
  split at h
  · cases hd : st.bufs[s.buf]? with
    | none => rw [hd] at h; exact absurd h (by simp)
    | some d =>
      rw [hd] at h
      simp only [Option.bind_eq_bind, Option.some_bind] at h
      split at h
      · cases h; exact ⟨rfl, rfl, rfl⟩
      · exact absurd h (by simp)
  · exact absurd h (by simp)

/-- Lemma: `sliceCopy` changes only the element buffers. -/
theorem sliceCopy_eff {st : StI V} {dst src : Sl} {st' : StI V}
    (h : sliceCopy st dst src = some st') :
    st'.nodes = st.nodes ∧ st'.root = st.root ∧ st'.m = st.m := by
  unfold sliceCopy at h
  cases hd : st.bufs[src.buf]? with
  | none => rw [hd] at h; exact absurd h (by simp)
  | some sd =>
    rw [hd] at h
    cases hdd : st.bufs[dst.buf]? with
    | none =>
      rw [hdd] at h
      exact absurd h (by simp)
    | some dd =>
      rw [hdd] at h
      simp only [Option.bind_eq_bind, Option.some_bind] at h
      cases h; exact ⟨rfl, rfl, rfl⟩

/-- Lemma: `sliceAppend` changes only the element buffers and returns a slice
one longer. -/
theorem sliceAppend_eff {st : StI V} {s : Sl} {x : Option (El V)} {st' : StI V} {s' : Sl}
    (h : sliceAppend st s x = some (st', s')) :
    st'.nodes = st.nodes ∧ st'.root = st.root ∧ st'.m = st.m ∧ s'.len = s.len + 1 := by
  unfold sliceAppend at h
  cases hd : st.bufs[s.buf]? with
  | none => rw [hd] at h; exact absurd h (by simp)
  | some d =>
    rw [hd] at h
    simp only [Option.bind_eq_bind, Option.some_bind] at h
    split at h
    · cases h; exact ⟨rfl, rfl, rfl, rfl⟩
    · cases h; exact ⟨rfl, rfl, rfl, rfl⟩

/-- Lemma: `subSl` succeeds exactly within bounds and yields the length
`hi - lo`. -/
theorem subSl_spec {s : Sl} {lo hi : Nat} {s' : Sl} (h : subSl s lo hi = some s') :
    lo ≤ hi ∧ hi ≤ s.len ∧ s'.len = hi - lo := by
  unfold subSl at h
  split at h
  · cases h; rename_i hb; exact ⟨hb.1, hb.2, rfl⟩
  · exact absurd h (by simp)

/-- Lemma: characterization of `reparentAll`: it rewrites the parent field of
exactly the listed ids (to `p`), leaves every other node record unchanged,
and keeps all other state components. -/
theorem reparentAll_spec {st : StI V} {cs : List Nat} {p : Nat} {st' : StI V}
    (h : reparentAll st cs p = some st') :
    st'.bufs = st.bufs ∧ st'.root = st.root ∧ st'.m = st.m ∧ st'.size = st.size ∧
    st'.nodes.length = st.nodes.length ∧
    ∀ i : Nat, st'.nodes[i]? =
      if i ∈ cs then (st.nodes[i]?).map (fun n => { n with parent := some p })
      else st.nodes[i]? := by
  induction cs generalizing st with
  | nil =>
    cases h
    exact ⟨rfl, rfl, rfl, rfl, rfl, fun i => by simp⟩
  | cons c rest ih =>
    unfold reparentAll at h
    cases hc : getNodeI st c with
    | none => rw [hc] at h; exact absurd h (by simp)
    | some cn =>
      rw [hc] at h
      simp only [Option.bind_eq_bind, Option.some_bind] at h
      obtain ⟨hb, hr, hm, hs, hl, hall⟩ := ih h
      have hc' : st.nodes[c]? = some cn := hc
      have hcl : c < st.nodes.length := by
        rcases List.getElem?_eq_some_iff.mp hc' with ⟨hlt, _⟩
        exact hlt
      have hset : ∀ i : Nat, (setNodeI st c { cn with parent := some p }).nodes[i]? =
          if i = c then some { cn with parent := some p } else st.nodes[i]? := by
        intro i
        show (st.nodes.set c _)[i]? = _
        rw [List.getElem?_set]
        by_cases hic : i = c
        · simp [hic, hcl]
        · simp [hic, Ne.symm hic]
      refine ⟨by rw [hb]; rfl, by rw [hr]; rfl, by rw [hm]; rfl, by rw [hs]; rfl,
        by rw [hl]; simp [setNodeI], ?_⟩
      intro i
      rw [hall i, hset i]
      by_cases hic : i = c
      · have hmem : i ∈ c :: rest := by simp [hic]
        have hsti : st.nodes[i]? = some cn := by rw [hic]; exact hc'
        by_cases hir : i ∈ rest
        · simp [hir, hic, hmem, hsti, hc']
        · simp [hir, hic, hmem, hsti, hc']
      · by_cases hir : i ∈ rest
        · have hmem : i ∈ c :: rest := by simp [hir]
          simp [hir, hic, hmem]
        · have hmem : i ∉ c :: rest := by simp [hic, hir]
          simp [hir, hic, hmem]



/-- Lemma: the binary-search loop returns an index of at most the slice
length. -/
theorem searchLoopI_le {st : StI V} {s : Sl} {key : Int} :
    ∀ {fuel : Nat} {lo hi : Int} {i : Nat} {b : Bool},
      searchLoopI st s key lo hi fuel = some (i, b) →
      0 ≤ lo → lo ≤ (s.len : Int) → hi ≤ (s.len : Int) - 1 → i ≤ s.len := by
  intro fuel
  induction fuel with
  | zero => intro lo hi i b h; exact absurd h (by simp [searchLoopI])
  | succ fuel ih =>
    intro lo hi i b h hlo hlos hhi
    rw [searchLoopI] at h
    split at h
    · rename_i hlohi
      rw [Option.bind_eq_bind] at h
      dsimp only at h
      cases he : readElem st s ((lo + hi) / 2).toNat with
      | none => rw [he] at h; exact absurd h (by simp)
      | some e =>
        rw [he] at h
        simp only [Option.some_bind] at h
        split at h
        · cases h
          omega
        · split at h
          · exact ih h (by omega) (by omega) hhi
          · exact ih h hlo hlos (by omega)
    · cases h
      omega

/-- Lemma: `search` on node `nid` returns an index of at most the node's entry
count. -/
theorem searchI_le {st : StI V} {nid : Nat} {key : Int} {n : NodeI V} {i : Nat} {b : Bool}
    (hn : getNodeI st nid = some n) (h : searchI st nid key = some (i, b)) :
    i ≤ n.elements.len := by
  unfold searchI at h
  rw [hn] at h
  simp only [Option.bind_eq_bind, Option.some_bind] at h
  exact searchLoopI_le h (by omega) (by omega) (by omega)



/-- Lemma: composing two parent rewrites keeps only the second. -/
theorem map_parent_twice (o : Option (NodeI V)) (p q : Nat) :
    (o.map (fun nn : NodeI V => ({ nn with parent := some p } : NodeI V))).map
      (fun nn : NodeI V => ({ nn with parent := some q } : NodeI V)) =
    o.map (fun nn : NodeI V => ({ nn with parent := some q } : NodeI V)) := by
  cases o <;> rfl

/-- Lemma: lookup after setting a valid index. -/
theorem getElem?_set_lt {α : Type} (l : List α) (j : Nat) (a : α) (hj : j < l.length)
    (i : Nat) : (l.set j a)[i]? = if i = j then some a else l[i]? := by
  rw [List.getElem?_set]
  by_cases h : j = i
  · simp [h, h ▸ hj]
  · have h' : ¬(i = j) := fun hh => h hh.symm
    simp [h, h']

/-- Lemma: lookup in a one-element extension. -/
theorem getElem?_snoc {α : Type} (l : List α) (a : α) (i : Nat) :
    (l ++ [a])[i]? = if i = l.length then some a else l[i]? := by
  rw [List.getElem?_append]
  by_cases h1 : i < l.length
  · simp [h1, Nat.ne_of_lt h1]
  · by_cases h2 : i = l.length
    · simp [h1, h2]
    · rw [if_neg h1, if_neg h2, List.getElem?_eq_none (by simp; omega),
        List.getElem?_eq_none (by omega)]

/-- Lemma: lookup in a two-element extension whose fresh slots were then
overwritten. -/
theorem getElem?_snoc2_set2 {V : Type} (ns : List (NodeI V)) (a b nl nr : NodeI V) (i : Nat) :
    (((ns ++ [a] ++ [b]).set ns.length nl).set (ns.length + 1) nr)[i]? =
    if i = ns.length then some nl
    else if i = ns.length + 1 then some nr
    else ns[i]? := by
  rw [getElem?_set_lt _ _ _ (by simp), getElem?_set_lt _ _ _ (by simp),
    getElem?_snoc, getElem?_snoc]
  simp only [List.length_append, List.length_singleton]
  by_cases h1 : i = ns.length
  · simp [h1]
  · by_cases h2 : i = ns.length + 1
    · simp [h1, h2]
    · simp [h1, h2]

/-- Lemma: lookup in a two-element extension. -/
theorem getElem?_snoc2 {α : Type} (ns : List α) (a b : α) (i : Nat) :
    (ns ++ [a] ++ [b])[i]? =
    if i = ns.length then some a
    else if i = ns.length + 1 then some b
    else ns[i]? := by
  rw [getElem?_snoc, getElem?_snoc]
  simp only [List.length_append, List.length_singleton]
  by_cases h1 : i = ns.length
  · simp [h1]
  · by_cases h2 : i = ns.length + 1
    · simp [h1, h2]
    · simp [h1, h2]

/-- Lemma: composing two parent rewrites (composition form). -/
theorem map_parent_comp (o : Option (NodeI V)) (p q : Nat) :
    Option.map ((fun nn : NodeI V => ({ nn with parent := some q } : NodeI V)) ∘
      (fun nn : NodeI V => ({ nn with parent := some p } : NodeI V))) o =
    Option.map (fun nn : NodeI V => ({ nn with parent := some q } : NodeI V)) o := by
  cases o <;> rfl

/-- Lemma: characterization of `makeSplitKids`: it appends the two halves as fresh
nodes `lid`, `rid` (sharing the element backing of `n`), reparents the child
halves to them, and touches nothing else. -/
theorem makeSplitKids_spec {st : StI V} {n : NodeI V} {pid : Option Nat} {mid : Nat}
    {st' : StI V} {lid rid : Nat}
    (hcl : ∀ c ∈ n.children, c < st.nodes.length)
    (h : makeSplitKids st n pid mid = some (st', lid, rid)) :
    lid = st.nodes.length ∧ rid = st.nodes.length + 1 ∧
    st'.root = st.root ∧ st'.m = st.m ∧
    st'.nodes.length = st.nodes.length + 2 ∧
    mid + 1 ≤ n.elements.len ∧
    ∃ nl nr : NodeI V,
      nl.parent = pid ∧ nr.parent = pid ∧
      nl.elements.len = mid ∧ nr.elements.len = n.elements.len - (mid + 1) ∧
      nl.children = n.children.take (mid + 1) ∧
      nr.children = n.children.drop (mid + 1) ∧
      (n.children = [] → nl.children = [] ∧ nr.children = []) ∧
      ∀ i : Nat, st'.nodes[i]? =
        if i = lid then some nl
        else if i = rid then some nr
        else if i ∈ n.children.drop (mid + 1) then
          (st.nodes[i]?).map (fun nn => { nn with parent := some rid })
        else if i ∈ n.children.take (mid + 1) then
          (st.nodes[i]?).map (fun nn => { nn with parent := some lid })
        else st.nodes[i]? := by
  unfold makeSplitKids at h
  cases hsL : subSl n.elements 0 mid with
  | none => rw [hsL] at h; exact absurd h (by simp)
  | some sL =>
    rw [hsL] at h
    cases hsR : subSl n.elements (mid + 1) n.elements.len with
    | none =>
      rw [hsR] at h
      exact absurd h (by simp)
    | some sR =>
      rw [hsR] at h
      simp only [Option.bind_eq_bind, Option.some_bind, allocNode,
        List.length_append, List.length_singleton] at h
      obtain ⟨-, hmidL, hsLlen⟩ := subSl_spec hsL
      obtain ⟨hmid1, hlenR, hsRlen⟩ := subSl_spec hsR
      split at h
      · -- leaf case: n.children = []
        rename_i hleaf
        rw [List.isEmpty_iff] at hleaf
        cases h
        refine ⟨rfl, by simp, rfl, rfl, by simp, hmid1,
          ⟨pid, [], sL⟩, ⟨pid, [], sR⟩, rfl, rfl, by simpa using hsLlen,
          by simpa using hsRlen, by simp [hleaf], by simp [hleaf], fun _ => ⟨rfl, rfl⟩, ?_⟩
        intro i
        simp only [hleaf, List.take_nil, List.drop_nil, List.not_mem_nil, if_false]
        show (st.nodes ++ [_] ++ [_])[i]? = _
        rw [getElem?_snoc2]
      · -- internal case
        rename_i hleaf
        rw [List.isEmpty_iff] at hleaf
        set lcs := n.children.take (mid + 1) with hlcs
        set rcs := n.children.drop (mid + 1) with hrcs
        cases hrpL : reparentAll
            (setNodeI (setNodeI
              { st with nodes := st.nodes ++ [⟨pid, [], sL⟩] ++ [⟨pid, [], sR⟩] }
              st.nodes.length ⟨pid, lcs, sL⟩) (st.nodes.length + 1) ⟨pid, rcs, sR⟩)
            lcs st.nodes.length with
        | none => rw [hrpL] at h; exact absurd h (by simp)
        | some stC =>
          rw [hrpL] at h
          simp only [Option.some_bind] at h
          cases hrpR : reparentAll stC rcs (st.nodes.length + 1) with
          | none => rw [hrpR] at h; exact absurd h (by simp)
          | some stD =>
            rw [hrpR] at h
            simp only [Option.some_bind] at h
            cases h
            obtain ⟨-, hrC, hmC, -, hlC, hallC⟩ := reparentAll_spec hrpL
            obtain ⟨-, hrD, hmD, -, hlD, hallD⟩ := reparentAll_spec hrpR
            have hlcsmem : ∀ c ∈ lcs, c < st.nodes.length := fun c hc =>
              hcl c (List.mem_of_mem_take hc)
            have hrcsmem : ∀ c ∈ rcs, c < st.nodes.length := fun c hc =>
              hcl c (List.mem_of_mem_drop hc)
            have hB : ∀ i : Nat,
                ((setNodeI (setNodeI
                  { st with nodes := st.nodes ++ [⟨pid, [], sL⟩] ++ [⟨pid, [], sR⟩] }
                  st.nodes.length ⟨pid, lcs, sL⟩) (st.nodes.length + 1)
                    ⟨pid, rcs, sR⟩)).nodes[i]? =
                if i = st.nodes.length then some ⟨pid, lcs, sL⟩
                else if i = st.nodes.length + 1 then some ⟨pid, rcs, sR⟩
                else st.nodes[i]? := by
              intro i
              show (((st.nodes ++ [_] ++ [_]).set st.nodes.length _).set
                (st.nodes.length + 1) _)[i]? = _
              rw [getElem?_snoc2_set2]
            refine ⟨rfl, rfl, by rw [hrD, hrC]; rfl, by rw [hmD, hmC]; rfl,
              by rw [hlD, hlC]; simp [setNodeI], hmid1,
              ⟨pid, lcs, sL⟩, ⟨pid, rcs, sR⟩, rfl, rfl, by simpa using hsLlen,
              by simpa using hsRlen, rfl, rfl,
              (fun hnil => absurd hnil hleaf), ?_⟩
            intro i
            rw [hallD i, hallC i, hB i]
            by_cases hi1 : i = st.nodes.length
            · subst hi1
              have hnl : st.nodes.length ∉ lcs := fun hc =>
                absurd (hlcsmem _ hc) (by omega)
              have hnr : st.nodes.length ∉ rcs := fun hc =>
                absurd (hrcsmem _ hc) (by omega)
              simp [hnl, hnr]
            · by_cases hi2 : i = st.nodes.length + 1
              · subst hi2
                have hnl : st.nodes.length + 1 ∉ lcs := fun hc =>
                  absurd (hlcsmem _ hc) (by omega)
                have hnr : st.nodes.length + 1 ∉ rcs := fun hc =>
                  absurd (hrcsmem _ hc) (by omega)
                simp [hnl, hnr]
              · by_cases hir : i ∈ rcs
                · by_cases hil : i ∈ lcs
                  · simp [hi1, hi2, hir, hil, map_parent_comp]
                  · simp [hi1, hi2, hir, hil]
                · by_cases hil : i ∈ lcs
                  · simp [hi1, hi2, hir, hil]
                  · simp [hi1, hi2, hir, hil]

/-- Lemma: `splitRootI` preserves the structural arena invariant: the two halves sit
at the old root's level, the new root one above it, and all reparented
children keep their levels. -/
theorem splitRootI_inv {st st' : StI V} {hgt : Nat → Nat}
    (hInv : ArenaInv st.nodes st.root hgt) (h : splitRootI st = some st') :
    ∃ hgt' : Nat → Nat, ArenaInv st'.nodes st'.root hgt' := by
  unfold splitRootI at h
  simp only [Option.bind_eq_bind] at h
  obtain ⟨rtid, hrt, h⟩ := Option.bind_eq_some.mp h
  obtain ⟨r, hr, h⟩ := Option.bind_eq_some.mp h
  obtain ⟨trip, hmk, h⟩ := Option.bind_eq_some.mp h
  obtain ⟨st3, lid, rid2⟩ := trip
  dsimp only at h
  obtain ⟨p, hp, h⟩ := Option.bind_eq_some.mp h
  dsimp only [allocNode] at h
  obtain ⟨st6, hrp, h⟩ := Option.bind_eq_some.mp h
  cases h
  obtain ⟨hlid, hrid2, hrt3, hm3, hlen3, hmid1, nl, nr, hnlp, hnrp, hnlL, hnrL,
    hnlc, hnrc, hnil0, hallK⟩ :=
    makeSplitKids_spec (fun c hc => hInv.child_lt rtid r hr c hc) hmk
  subst hlid
  subst hrid2
  set N := st.nodes.length with hN
  set mid := ((st.m - 1) / 2).toNat with hmid
  obtain ⟨hb6, hr6, hm6, hs6, hl6, hall6⟩ := reparentAll_spec hrp
  rw [hlen3] at hall6
  have hall6b : ∀ i : Nat, st6.nodes[i]? =
      if i ∈ [N, N + 1] then
        ((st3.nodes ++ [(⟨none, [N, N + 1], ⟨st3.bufs.length, 0, 1⟩⟩ : NodeI V)])[i]?).map
          (fun nn => { nn with parent := some (N + 2) })
      else (st3.nodes ++ [(⟨none, [N, N + 1], ⟨st3.bufs.length, 0, 1⟩⟩ : NodeI V)])[i]? :=
    hall6
  have hl6b : st6.nodes.length =
      (st3.nodes ++ [(⟨none, [N, N + 1], ⟨st3.bufs.length, 0, 1⟩⟩ : NodeI V)]).length := hl6
  have hrtl : rtid < N := hInv.root_lt rtid hrt
  have hgrt : hgt rtid < N := hInv.hgt_lt rtid hrtl
  have hmemr : ∀ c ∈ r.children, c < N := hInv.child_lt rtid r hr
  have hdN : ∀ c ∈ r.children.drop (mid + 1), c < N := fun c hc =>
    hmemr c (List.mem_of_mem_drop hc)
  have htN : ∀ c ∈ r.children.take (mid + 1), c < N := fun c hc =>
    hmemr c (List.mem_of_mem_take hc)
  have hlen6 : st6.nodes.length = N + 3 := by
    rw [hl6b, List.length_append, hlen3]
    rfl
  have harr : ∀ i : Nat, st6.nodes[i]? =
      if i = N then some { nl with parent := some (N + 2) }
      else if i = N + 1 then some { nr with parent := some (N + 2) }
      else if i = N + 2 then
        some (⟨none, [N, N + 1], ⟨st3.bufs.length, 0, 1⟩⟩ : NodeI V)
      else if i ∈ r.children.drop (mid + 1) then
        (st.nodes[i]?).map (fun nn : NodeI V => ({ nn with parent := some (N + 1) } : NodeI V))
      else if i ∈ r.children.take (mid + 1) then
        (st.nodes[i]?).map (fun nn : NodeI V => ({ nn with parent := some N } : NodeI V))
      else st.nodes[i]? := by
    intro i
    rw [hall6b i, getElem?_snoc, hlen3, hallK i]
    by_cases h1 : i = N
    · subst h1
      have hnd : N ∉ r.children.drop (mid + 1) := fun hc => absurd (hdN _ hc) (by omega)
      simp [hnd]
    · by_cases h2 : i = N + 1
      · subst h2
        have hnd : N + 1 ∉ r.children.drop (mid + 1) := fun hc =>
          absurd (hdN _ hc) (by omega)
        simp [hnd]
      · by_cases h3 : i = N + 2
        · subst h3
          have hnd : N + 2 ∉ r.children.drop (mid + 1) := fun hc =>
            absurd (hdN _ hc) (by omega)
          have hnt : N + 2 ∉ r.children.take (mid + 1) := fun hc =>
            absurd (htN _ hc) (by omega)
          simp [h1, h2, hnd, hnt]
        · have hni : i ∉ [N, N + 1] := by simp [h1, h2]
          simp only [h1, h2, h3, if_false, hni]
  set G : Nat → Nat := fun i => if i = N + 2 then hgt rtid + 1
    else if i = N ∨ i = N + 1 then hgt rtid else hgt i with hGdef
  have hGold : ∀ x : Nat, x < N → G x = hgt x := by
    intro x hx
    have d1 : ¬(x = N + 2) := by omega
    have d2 : ¬(x = N ∨ x = N + 1) := by omega
    simp [hGdef, d1, d2]
  have hGN : G N = hgt rtid := by
    have d1 : ¬(N = N + 2) := by omega
    simp [hGdef, d1]
  have hGN1 : G (N + 1) = hgt rtid := by
    have d1 : ¬(N + 1 = N + 2) := by omega
    simp [hGdef, d1]
  have hGN2 : G (N + 2) = hgt rtid + 1 := by simp [hGdef]
  refine ⟨G, ?_, ?_, ?_, ?_, ?_, ?_, ?_, ?_⟩
  · -- root_lt
    intro r0 h0
    cases h0
    rw [hlen6, hlen3]
    omega
  · -- child_lt
    intro nid n hn c hc
    rw [hlen6]
    rw [harr nid] at hn
    split_ifs at hn with h1 h2 h3 h4 h5
    · cases hn
      have hmem : c ∈ r.children.take (mid + 1) := by simpa [hnlc] using hc
      exact Nat.lt_of_lt_of_le (htN c hmem) (by omega)
    · cases hn
      have hmem : c ∈ r.children.drop (mid + 1) := by simpa [hnrc] using hc
      exact Nat.lt_of_lt_of_le (hdN c hmem) (by omega)
    · cases hn
      simp only [List.mem_cons, List.not_mem_nil, or_false] at hc
      rcases hc with rfl | rfl
      · omega
      · omega
    · obtain ⟨old, hold, rfl⟩ := Option.map_eq_some'.mp hn
      have : c < N := hInv.child_lt nid old hold c (by simpa using hc)
      omega
    · obtain ⟨old, hold, rfl⟩ := Option.map_eq_some'.mp hn
      have : c < N := hInv.child_lt nid old hold c (by simpa using hc)
      omega
    · have : c < N := hInv.child_lt nid n hn c hc
      omega
  · -- parent_lt
    intro nid n q hn hq
    rw [hlen6]
    rw [harr nid] at hn
    split_ifs at hn with h1 h2 h3 h4 h5
    · cases hn
      cases hq
      omega
    · cases hn
      cases hq
      omega
    · cases hn
      cases hq
    · obtain ⟨old, hold, rfl⟩ := Option.map_eq_some'.mp hn
      cases hq
      omega
    · obtain ⟨old, hold, rfl⟩ := Option.map_eq_some'.mp hn
      cases hq
      omega
    · have : q < N := hInv.parent_lt nid n q hn hq
      omega
  · -- leaf_hgt
    intro nid n hn hleaf
    rw [harr nid] at hn
    split_ifs at hn with h1 h2 h3 h4 h5
    · cases hn
      subst h1
      rw [hGN]
      have hnl0 : nl.children = [] := by simpa using hleaf
      rw [hnlc] at hnl0
      rcases List.take_eq_nil_iff.mp hnl0 with h | h
      · omega
      · exact hInv.leaf_hgt rtid r hr h
    · cases hn
      subst h2
      rw [hGN1]
      have hnr0 : nr.children = [] := by simpa using hleaf
      rw [hnrc] at hnr0
      have hle : r.children.length ≤ mid + 1 := by
        have := List.drop_eq_nil_iff.mp hnr0
        omega
      by_cases hrc : r.children = []
      · exact hInv.leaf_hgt rtid r hr hrc
      · have := hInv.count_ok rtid r hr hrc
        omega
    · cases hn
      simp at hleaf
    · obtain ⟨old, hold, rfl⟩ := Option.map_eq_some'.mp hn
      rw [hGold nid (hdN nid h4)]
      exact hInv.leaf_hgt nid old hold (by simpa using hleaf)
    · obtain ⟨old, hold, rfl⟩ := Option.map_eq_some'.mp hn
      rw [hGold nid (htN nid h5)]
      exact hInv.leaf_hgt nid old hold (by simpa using hleaf)
    · have hv : nid < N := by
        have := List.getElem?_eq_some_iff.mp hn
        exact this.1
      rw [hGold nid hv]
      exact hInv.leaf_hgt nid n hn hleaf
  · -- child_hgt
    intro nid n hn c hc
    rw [harr nid] at hn
    split_ifs at hn with h1 h2 h3 h4 h5
    · cases hn
      subst h1
      rw [hGN]
      have hmem : c ∈ r.children.take (mid + 1) := by simpa [hnlc] using hc
      rw [hGold c (htN c hmem)]
      exact hInv.child_hgt rtid r hr c (List.mem_of_mem_take hmem)
    · cases hn
      subst h2
      rw [hGN1]
      have hmem : c ∈ r.children.drop (mid + 1) := by simpa [hnrc] using hc
      rw [hGold c (hdN c hmem)]
      exact hInv.child_hgt rtid r hr c (List.mem_of_mem_drop hmem)
    · cases hn
      subst h3
      rw [hGN2]
      simp only [List.mem_cons, List.not_mem_nil, or_false] at hc
      rcases hc with rfl | rfl
      · rw [hGN]
      · rw [hGN1]
    · obtain ⟨old, hold, rfl⟩ := Option.map_eq_some'.mp hn
      have hv : nid < N := hdN nid h4
      have hcm : c ∈ old.children := by simpa using hc
      have hcv : c < N := hInv.child_lt nid old hold c hcm
      rw [hGold c hcv, hGold nid hv]
      exact hInv.child_hgt nid old hold c hcm
    · obtain ⟨old, hold, rfl⟩ := Option.map_eq_some'.mp hn
      have hv : nid < N := htN nid h5
      have hcm : c ∈ old.children := by simpa using hc
      have hcv : c < N := hInv.child_lt nid old hold c hcm
      rw [hGold c hcv, hGold nid hv]
      exact hInv.child_hgt nid old hold c hcm
    · have hv : nid < N := (List.getElem?_eq_some_iff.mp hn).1
      have hcv : c < N := hInv.child_lt nid n hn c hc
      rw [hGold c hcv, hGold nid hv]
      exact hInv.child_hgt nid n hn c hc
  · -- parent_hgt
    intro nid n q hn hq
    rw [harr nid] at hn
    split_ifs at hn with h1 h2 h3 h4 h5
    · cases hn
      cases hq
      subst h1
      rw [hGN, hGN2]
    · cases hn
      cases hq
      subst h2
      rw [hGN1, hGN2]
    · cases hn
      cases hq
    · obtain ⟨old, hold, rfl⟩ := Option.map_eq_some'.mp hn
      cases hq
      have hv : nid < N := hdN nid h4
      rw [hGold nid hv, hGN1]
      exact hInv.child_hgt rtid r hr nid (List.mem_of_mem_drop h4)
    · obtain ⟨old, hold, rfl⟩ := Option.map_eq_some'.mp hn
      cases hq
      have hv : nid < N := htN nid h5
      rw [hGold nid hv, hGN]
      exact hInv.child_hgt rtid r hr nid (List.mem_of_mem_take h5)
    · have hv : nid < N := (List.getElem?_eq_some_iff.mp hn).1
      have hqv : q < N := hInv.parent_lt nid n q hn hq
      rw [hGold nid hv, hGold q hqv]
      exact hInv.parent_hgt nid n q hn hq
  · -- count_ok
    intro nid n hn hne
    rw [harr nid] at hn
    split_ifs at hn with h1 h2 h3 h4 h5
    · cases hn
      have hne' : nl.children ≠ [] := by simpa using hne
      rw [hnlc] at hne'
      have hrc : r.children ≠ [] := by
        intro hcc
        rw [hcc] at hne'
        simp at hne'
      have hcnt := hInv.count_ok rtid r hr hrc
      show nl.children.length = nl.elements.len + 1
      rw [hnlc, hnlL, List.length_take]
      omega
    · cases hn
      have hne' : nr.children ≠ [] := by simpa using hne
      rw [hnrc] at hne'
      have hrc : r.children ≠ [] := by
        intro hcc
        rw [hcc] at hne'
        simp at hne'
      have hcnt := hInv.count_ok rtid r hr hrc
      show nr.children.length = nr.elements.len + 1
      rw [hnrc, hnrL, List.length_drop]
      omega
    · cases hn
      rfl
    · obtain ⟨old, hold, rfl⟩ := Option.map_eq_some'.mp hn
      have hne' : old.children ≠ [] := by simpa using hne
      exact hInv.count_ok nid old hold hne'
    · obtain ⟨old, hold, rfl⟩ := Option.map_eq_some'.mp hn
      have hne' : old.children ≠ [] := by simpa using hne
      exact hInv.count_ok nid old hold hne'
    · exact hInv.count_ok nid n hn hne
  · -- hgt_lt
    intro nid hlt
    rw [hlen6] at hlt
    rw [hlen6]
    by_cases h1 : nid = N + 2
    · rw [h1, hGN2]
      omega
    · by_cases h2 : nid = N
      · rw [h2, hGN]
        omega
      · by_cases h3 : nid = N + 1
        · rw [h3, hGN1]
          omega
        · have hv : nid < N := by omega
          rw [hGold nid hv]
          have := hInv.hgt_lt nid hv
          omega

/-- Lemma: characterization of `parentElemInsert`: it grows the parent's element
slice by one (the `append`/`copy`/assign insertion), changes no other node
record, and the insertion position is at most the parent's old entry
count. -/
theorem parentElemInsert_spec {st3 : StI V} {n : NodeI V} {pid mid : Nat} {st7 : StI V}
    {ipos : Nat} (h : parentElemInsert st3 n pid mid = some (st7, ipos)) :
    ∃ (p1 : NodeI V) (pes1 : Sl), getNodeI st3 pid = some p1 ∧
      pes1.len = p1.elements.len + 1 ∧
      ipos ≤ p1.elements.len ∧
      st7.root = st3.root ∧ st7.m = st3.m ∧
      st7.nodes.length = st3.nodes.length ∧
      ∀ i : Nat, st7.nodes[i]? =
        if i = pid then some { p1 with elements := pes1 } else st3.nodes[i]? := by
  unfold parentElemInsert at h
  simp only [Option.bind_eq_bind] at h
  obtain ⟨pel, hpel, h⟩ := Option.bind_eq_some.mp h
  obtain ⟨pr, hsrch, h⟩ := Option.bind_eq_some.mp h
  obtain ⟨ip0, b0⟩ := pr
  dsimp only at h
  obtain ⟨p1, hp1, h⟩ := Option.bind_eq_some.mp h
  obtain ⟨pa, happ, h⟩ := Option.bind_eq_some.mp h
  obtain ⟨st4, pes1⟩ := pa
  dsimp only at h
  obtain ⟨dstS, hdst, h⟩ := Option.bind_eq_some.mp h
  obtain ⟨srcS, hsrc, h⟩ := Option.bind_eq_some.mp h
  obtain ⟨st6, hcpy, h⟩ := Option.bind_eq_some.mp h
  obtain ⟨p2, hp2, h⟩ := Option.bind_eq_some.mp h
  obtain ⟨st7x, hws, h⟩ := Option.bind_eq_some.mp h
  cases h
  obtain ⟨ha1, ha2, ha3, ha4⟩ := sliceAppend_eff happ
  obtain ⟨hc1, hc2, hc3⟩ := sliceCopy_eff hcpy
  obtain ⟨hw1, hw2, hw3⟩ := writeSlot_eff hws
  have hpidlt : pid < st3.nodes.length := (List.getElem?_eq_some_iff.mp hp1).1
  refine ⟨p1, pes1, hp1, ha4, searchI_le hp1 hsrch, ?_, ?_, ?_, ?_⟩
  · rw [hw2, hc2]
    show st4.root = st3.root
    exact ha2
  · rw [hw3, hc3]
    show st4.m = st3.m
    exact ha3
  · rw [hw1, hc1]
    show (st4.nodes.set pid _).length = _
    rw [List.length_set, ha1]
  · intro i
    rw [hw1, hc1]
    show (st4.nodes.set pid _)[i]? = _
    rw [ha1, getElem?_set_lt _ _ _ hpidlt]

/-- Lemma: `splitNonRootSurgery` preserves the structural arena invariant — for any
insertion slot the re-search may have picked.  The two halves sit at the
overflowing node's level; whichever child slot of the (possibly stale)
parent gets overwritten, the parent's child count grows by one in lockstep
with its element count, and parent back-pointers stay one level up. -/
theorem splitNonRootSurgery_inv {st st' : StI V} {nid pid : Nat} {hgt : Nat → Nat}
    (hInv : ArenaInv st.nodes st.root hgt)
    (h : splitNonRootSurgery st nid = some (st', pid)) :
    ∃ hgt' : Nat → Nat, ArenaInv st'.nodes st'.root hgt' := by
  unfold splitNonRootSurgery at h
  simp only [Option.bind_eq_bind] at h
  obtain ⟨n, hn0, h⟩ := Option.bind_eq_some.mp h
  obtain ⟨pid0, hpid, h⟩ := Option.bind_eq_some.mp h
  obtain ⟨trip, hmk, h⟩ := Option.bind_eq_some.mp h
  obtain ⟨st3, lid, rid⟩ := trip
  dsimp only at h
  obtain ⟨pr, hpe, h⟩ := Option.bind_eq_some.mp h
  obtain ⟨st7, ipos⟩ := pr
  dsimp only at h
  obtain ⟨pn, hpn, h⟩ := Option.bind_eq_some.mp h
  split at h
  case isFalse => exact absurd h (by simp)
  case isTrue hguard =>
  cases h
  have hnv : nid < st.nodes.length := (List.getElem?_eq_some_iff.mp hn0).1
  have hpv : pid < st.nodes.length := hInv.parent_lt nid n pid hn0 hpid
  have hph : hgt nid + 1 = hgt pid := hInv.parent_hgt nid n pid hn0 hpid
  have hmemn : ∀ c ∈ n.children, c < st.nodes.length := hInv.child_lt nid n hn0
  have hpidnc : pid ∉ n.children := fun hc => by
    have := hInv.child_hgt nid n hn0 pid hc
    omega
  obtain ⟨hlid, hrid, hrt3, hm3, hlen3, hmid1, nl, nr, hnlp, hnrp, hnlL, hnrL,
    hnlc, hnrc, hnil0, hallK⟩ := makeSplitKids_spec hmemn hmk
  subst hlid
  subst hrid
  set N := st.nodes.length with hN
  set mid := ((st.m - 1) / 2).toNat with hmid
  obtain ⟨p1, pes1, hp13, hlenp, hiple, hr7, hm7, hl7, hall7⟩ := parentElemInsert_spec hpe
  have hdN : ∀ c ∈ n.children.drop (mid + 1), c < N := fun c hc =>
    hmemn c (List.mem_of_mem_drop hc)
  have htN : ∀ c ∈ n.children.take (mid + 1), c < N := fun c hc =>
    hmemn c (List.mem_of_mem_take hc)
  have hpnd : pid ∉ n.children.drop (mid + 1) := fun hc =>
    hpidnc (List.mem_of_mem_drop hc)
  have hpnt : pid ∉ n.children.take (mid + 1) := fun hc =>
    hpidnc (List.mem_of_mem_take hc)
  have hp1st : st.nodes[pid]? = some p1 := by
    have := hp13
    unfold getNodeI at this
    rw [hallK pid] at this
    have e1 : ¬(pid = N) := by omega
    have e2 : ¬(pid = N + 1) := by omega
    rw [if_neg e1, if_neg e2, if_neg hpnd, if_neg hpnt] at this
    exact this
  unfold getNodeI at hpn
  rw [hall7 pid, if_pos rfl] at hpn
  have hpn' : ({ p1 with elements := pes1 } : NodeI V) = pn := Option.some.inj hpn
  subst hpn'
  have hguard' : ipos < p1.children.length := hguard
  have hpcne : p1.children ≠ [] := by
    intro hcc
    rw [hcc] at hguard'
    simp at hguard'
  have hcount : p1.children.length = p1.elements.len + 1 :=
    hInv.count_ok pid p1 hp1st hpcne
  have hlen7 : st7.nodes.length = N + 2 := by rw [hl7, hlen3]
  have harr : ∀ i : Nat,
      (setNodeI st7 pid
        ⟨p1.parent, (p1.children.set ipos N).take (ipos + 1) ++
          (N + 1) :: (p1.children.set ipos N).drop (ipos + 1), pes1⟩).nodes[i]? =
      if i = pid then
        some ⟨p1.parent, (p1.children.set ipos N).take (ipos + 1) ++
          (N + 1) :: (p1.children.set ipos N).drop (ipos + 1), pes1⟩
      else if i = N then some nl
      else if i = N + 1 then some nr
      else if i ∈ n.children.drop (mid + 1) then
        (st.nodes[i]?).map (fun nn : NodeI V => ({ nn with parent := some (N + 1) } : NodeI V))
      else if i ∈ n.children.take (mid + 1) then
        (st.nodes[i]?).map (fun nn : NodeI V => ({ nn with parent := some N } : NodeI V))
      else st.nodes[i]? := by
    intro i
    show (st7.nodes.set pid _)[i]? = _
    rw [getElem?_set_lt _ _ _ (by omega), hall7 i, hallK i]
    by_cases h0 : i = pid
    · simp [h0]
    · simp only [h0, if_false]
  set cs2 : List Nat := (p1.children.set ipos N).take (ipos + 1) ++
    (N + 1) :: (p1.children.set ipos N).drop (ipos + 1) with hcs2
  have hcs2len : cs2.length = p1.children.length + 1 := by
    rw [hcs2]
    rw [List.length_append, List.length_cons, List.length_take, List.length_drop,
      List.length_set]
    omega
  have hcs2mem : ∀ c ∈ cs2, c = N ∨ c = N + 1 ∨ c ∈ p1.children := by
    intro c hc
    rw [hcs2] at hc
    rcases List.mem_append.mp hc with hc1 | hc2
    · rcases List.mem_or_eq_of_mem_set (List.mem_of_mem_take hc1) with hcc | hcc
      · right; right; exact hcc
      · left; exact hcc
    · rcases List.mem_cons.mp hc2 with hcc | hcc
      · right; left; exact hcc
      · rcases List.mem_or_eq_of_mem_set (List.mem_of_mem_drop hcc) with hdd | hdd
        · right; right; exact hdd
        · left; exact hdd
  set G : Nat → Nat := fun i => if i = N ∨ i = N + 1 then hgt nid else hgt i with hGdef
  have hGold : ∀ x : Nat, x < N → G x = hgt x := by
    intro x hx
    have d2 : ¬(x = N ∨ x = N + 1) := by omega
    simp [hGdef, d2]
  have hGN : G N = hgt nid := by simp [hGdef]
  have hGN1 : G (N + 1) = hgt nid := by simp [hGdef]
  refine ⟨G, ?_, ?_, ?_, ?_, ?_, ?_, ?_, ?_⟩
  · -- root_lt
    intro r0 h0
    have hsr : st.root = some r0 := by
      rw [← hrt3, ← hr7]
      exact h0
    have := hInv.root_lt r0 hsr
    show r0 < (st7.nodes.set pid _).length
    rw [List.length_set, hlen7]
    omega
  · -- child_lt
    intro j nj hn c hc
    show c < (st7.nodes.set pid _).length
    rw [List.length_set, hlen7]
    rw [harr j] at hn
    split_ifs at hn with h0 h1 h2 h3 h4
    · cases hn
      rcases hcs2mem c hc with rfl | rfl | hcc
      · omega
      · omega
      · have := hInv.child_lt pid p1 hp1st c hcc
        omega
    · cases hn
      have hmem : c ∈ n.children.take (mid + 1) := by simpa [hnlc] using hc
      have := htN c hmem
      omega
    · cases hn
      have hmem : c ∈ n.children.drop (mid + 1) := by simpa [hnrc] using hc
      have := hdN c hmem
      omega
    · obtain ⟨old, hold, rfl⟩ := Option.map_eq_some'.mp hn
      have : c < N := hInv.child_lt j old hold c (by simpa using hc)
      omega
    · obtain ⟨old, hold, rfl⟩ := Option.map_eq_some'.mp hn
      have : c < N := hInv.child_lt j old hold c (by simpa using hc)
      omega
    · have : c < N := hInv.child_lt j nj hn c hc
      omega
  · -- parent_lt
    intro j nj q hn hq
    show q < (st7.nodes.set pid _).length
    rw [List.length_set, hlen7]
    rw [harr j] at hn
    split_ifs at hn with h0 h1 h2 h3 h4
    · cases hn
      have hq' : p1.parent = some q := hq
      have := hInv.parent_lt pid p1 q hp1st hq'
      omega
    · cases hn
      have hq' : nl.parent = some q := hq
      rw [hnlp] at hq'
      cases hq'
      omega
    · cases hn
      have hq' : nr.parent = some q := hq
      rw [hnrp] at hq'
      cases hq'
      omega
    · obtain ⟨old, hold, rfl⟩ := Option.map_eq_some'.mp hn
      cases hq
      omega
    · obtain ⟨old, hold, rfl⟩ := Option.map_eq_some'.mp hn
      cases hq
      omega
    · have := hInv.parent_lt j nj q hn hq
      omega
  · -- leaf_hgt
    intro j nj hn hleaf
    rw [harr j] at hn
    split_ifs at hn with h0 h1 h2 h3 h4
    · cases hn
      have : cs2 = [] := hleaf
      rw [← List.length_eq_zero] at this
      omega
    · cases hn
      subst h1
      rw [hGN]
      have hnl0 : nl.children = [] := by simpa using hleaf
      rw [hnlc] at hnl0
      rcases List.take_eq_nil_iff.mp hnl0 with hcc | hcc
      · omega
      · exact hInv.leaf_hgt nid n hn0 hcc
    · cases hn
      subst h2
      rw [hGN1]
      have hnr0 : nr.children = [] := by simpa using hleaf
      rw [hnrc] at hnr0
      have hle : n.children.length ≤ mid + 1 := by
        have := List.drop_eq_nil_iff.mp hnr0
        omega
      by_cases hcc : n.children = []
      · exact hInv.leaf_hgt nid n hn0 hcc
      · have := hInv.count_ok nid n hn0 hcc
        omega
    · obtain ⟨old, hold, rfl⟩ := Option.map_eq_some'.mp hn
      rw [hGold j (hdN j h3)]
      exact hInv.leaf_hgt j old hold (by simpa using hleaf)
    · obtain ⟨old, hold, rfl⟩ := Option.map_eq_some'.mp hn
      rw [hGold j (htN j h4)]
      exact hInv.leaf_hgt j old hold (by simpa using hleaf)
    · have hv : j < N := (List.getElem?_eq_some_iff.mp hn).1
      rw [hGold j hv]
      exact hInv.leaf_hgt j nj hn hleaf
  · -- child_hgt
    intro j nj hn c hc
    rw [harr j] at hn
    split_ifs at hn with h0 h1 h2 h3 h4
    · cases hn
      rw [h0, hGold pid hpv]
      rcases hcs2mem c hc with rfl | rfl | hcc
      · rw [hGN]
        omega
      · rw [hGN1]
        omega
      · have hcv : c < N := hInv.child_lt pid p1 hp1st c hcc
        rw [hGold c hcv]
        exact hInv.child_hgt pid p1 hp1st c hcc
    · cases hn
      subst h1
      rw [hGN]
      have hmem : c ∈ n.children.take (mid + 1) := by simpa [hnlc] using hc
      rw [hGold c (htN c hmem)]
      exact hInv.child_hgt nid n hn0 c (List.mem_of_mem_take hmem)
    · cases hn
      subst h2
      rw [hGN1]
      have hmem : c ∈ n.children.drop (mid + 1) := by simpa [hnrc] using hc
      rw [hGold c (hdN c hmem)]
      exact hInv.child_hgt nid n hn0 c (List.mem_of_mem_drop hmem)
    · obtain ⟨old, hold, rfl⟩ := Option.map_eq_some'.mp hn
      have hv : j < N := hdN j h3
      have hcm : c ∈ old.children := by simpa using hc
      have hcv : c < N := hInv.child_lt j old hold c hcm
      rw [hGold c hcv, hGold j hv]
      exact hInv.child_hgt j old hold c hcm
    · obtain ⟨old, hold, rfl⟩ := Option.map_eq_some'.mp hn
      have hv : j < N := htN j h4
      have hcm : c ∈ old.children := by simpa using hc
      have hcv : c < N := hInv.child_lt j old hold c hcm
      rw [hGold c hcv, hGold j hv]
      exact hInv.child_hgt j old hold c hcm
    · have hv : j < N := (List.getElem?_eq_some_iff.mp hn).1
      have hcv : c < N := hInv.child_lt j nj hn c hc
      rw [hGold c hcv, hGold j hv]
      exact hInv.child_hgt j nj hn c hc
  · -- parent_hgt
    intro j nj q hn hq
    rw [harr j] at hn
    split_ifs at hn with h0 h1 h2 h3 h4
    · cases hn
      have hq' : p1.parent = some q := hq
      have hqv : q < N := hInv.parent_lt pid p1 q hp1st hq'
      rw [h0, hGold pid hpv, hGold q hqv]
      exact hInv.parent_hgt pid p1 q hp1st hq'
    · cases hn
      subst h1
      have hq' : nl.parent = some q := hq
      rw [hnlp] at hq'
      cases hq'
      rw [hGN, hGold pid hpv]
      exact hph
    · cases hn
      subst h2
      have hq' : nr.parent = some q := hq
      rw [hnrp] at hq'
      cases hq'
      rw [hGN1, hGold pid hpv]
      exact hph
    · obtain ⟨old, hold, rfl⟩ := Option.map_eq_some'.mp hn
      cases hq
      have hv : j < N := hdN j h3
      rw [hGold j hv, hGN1]
      exact hInv.child_hgt nid n hn0 j (List.mem_of_mem_drop h3)
    · obtain ⟨old, hold, rfl⟩ := Option.map_eq_some'.mp hn
      cases hq
      have hv : j < N := htN j h4
      rw [hGold j hv, hGN]
      exact hInv.child_hgt nid n hn0 j (List.mem_of_mem_take h4)
    · have hv : j < N := (List.getElem?_eq_some_iff.mp hn).1
      have hqv : q < N := hInv.parent_lt j nj q hn hq
      rw [hGold j hv, hGold q hqv]
      exact hInv.parent_hgt j nj q hn hq
  · -- count_ok
    intro j nj hn hne
    rw [harr j] at hn
    split_ifs at hn with h0 h1 h2 h3 h4
    · cases hn
      show cs2.length = pes1.len + 1
      rw [hcs2len, hlenp]
      omega
    · cases hn
      have hne' : nl.children ≠ [] := by simpa using hne
      rw [hnlc] at hne'
      have hcc : n.children ≠ [] := by
        intro hcc
        rw [hcc] at hne'
        simp at hne'
      have hcnt := hInv.count_ok nid n hn0 hcc
      show nl.children.length = nl.elements.len + 1
      rw [hnlc, hnlL, List.length_take]
      omega
    · cases hn
      have hne' : nr.children ≠ [] := by simpa using hne
      rw [hnrc] at hne'
      have hcc : n.children ≠ [] := by
        intro hcc
        rw [hcc] at hne'
        simp at hne'
      have hcnt := hInv.count_ok nid n hn0 hcc
      show nr.children.length = nr.elements.len + 1
      rw [hnrc, hnrL, List.length_drop]
      omega
    · obtain ⟨old, hold, rfl⟩ := Option.map_eq_some'.mp hn
      have hne' : old.children ≠ [] := by simpa using hne
      exact hInv.count_ok j old hold hne'
    · obtain ⟨old, hold, rfl⟩ := Option.map_eq_some'.mp hn
      have hne' : old.children ≠ [] := by simpa using hne
      exact hInv.count_ok j old hold hne'
    · exact hInv.count_ok j nj hn hne
  · -- hgt_lt
    intro j hlt
    show G j < (st7.nodes.set pid _).length
    rw [List.length_set, hlen7]
    have hlt' : j < N + 2 := by
      have h2 : j < (st7.nodes.set pid (⟨p1.parent, cs2, pes1⟩ : NodeI V)).length := hlt
      rw [List.length_set, hlen7] at h2
      exact h2
    by_cases h1 : j = N
    · rw [h1, hGN]
      have := hInv.hgt_lt nid hnv
      omega
    · by_cases h2 : j = N + 1
      · rw [h2, hGN1]
        have := hInv.hgt_lt nid hnv
        omega
      · have hv : j < N := by omega
        rw [hGold j hv]
        have := hInv.hgt_lt j hv
        omega

/-- Lemma: replacing a node record without touching its children or parent (and
keeping the child count in lockstep when internal) preserves the arena
invariant with the same level assignment. -/
theorem setNode_same_struct_inv {ns : List (NodeI V)} {rt : Option Nat} {hgt : Nat → Nat}
    (hInv : ArenaInv ns rt hgt) {nid : Nat} {n n' : NodeI V} (hn : ns[nid]? = some n)
    (hch : n'.children = n.children) (hpar : n'.parent = n.parent)
    (hcnt : n.children ≠ [] → n'.children.length = n'.elements.len + 1) :
    ArenaInv (ns.set nid n') rt hgt := by
  have hv : nid < ns.length := (List.getElem?_eq_some_iff.mp hn).1
  have harr : ∀ i : Nat, (ns.set nid n')[i]? = if i = nid then some n' else ns[i]? :=
    getElem?_set_lt ns nid n' hv
  refine ⟨?_, ?_, ?_, ?_, ?_, ?_, ?_, ?_⟩
  · intro r0 h0
    rw [List.length_set]
    exact hInv.root_lt r0 h0
  · intro j nj hj c hc
    rw [List.length_set]
    rw [harr j] at hj
    split_ifs at hj with h0
    · cases hj
      rw [hch] at hc
      exact hInv.child_lt nid n hn c hc
    · exact hInv.child_lt j nj hj c hc
  · intro j nj q hj hq
    rw [List.length_set]
    rw [harr j] at hj
    split_ifs at hj with h0
    · cases hj
      rw [hpar] at hq
      exact hInv.parent_lt nid n q hn hq
    · exact hInv.parent_lt j nj q hj hq
  · intro j nj hj hleaf
    rw [harr j] at hj
    split_ifs at hj with h0
    · cases hj
      subst h0
      rw [hch] at hleaf
      exact hInv.leaf_hgt j n hn hleaf
    · exact hInv.leaf_hgt j nj hj hleaf
  · intro j nj hj c hc
    rw [harr j] at hj
    split_ifs at hj with h0
    · cases hj
      subst h0
      rw [hch] at hc
      exact hInv.child_hgt j n hn c hc
    · exact hInv.child_hgt j nj hj c hc
  · intro j nj q hj hq
    rw [harr j] at hj
    split_ifs at hj with h0
    · cases hj
      subst h0
      rw [hpar] at hq
      exact hInv.parent_hgt j n q hn hq
    · exact hInv.parent_hgt j nj q hj hq
  · intro j nj hj hne
    rw [harr j] at hj
    split_ifs at hj with h0
    · cases hj
      have : n.children ≠ [] := by
        rw [← hch]
        exact hne
      exact hcnt this
    · exact hInv.count_ok j nj hj hne
  · intro j hj
    rw [List.length_set] at hj
    rw [List.length_set]
    exact hInv.hgt_lt j hj
  
/-- Lemma: the split cascade preserves the structural arena invariant. -/
theorem splitI_inv : ∀ (fuel : Nat) (st : StI V) (nid : Nat) (st' : StI V),
    splitI fuel st nid = some st' → InvI st → InvI st' := by
  intro fuel
  induction fuel with
  | zero => intro st nid st' h; exact absurd h (by simp [splitI])
  | succ fuel ih =>
    intro st nid st' h hInv
    rw [splitI] at h
    simp only [Option.bind_eq_bind] at h
    obtain ⟨n, hn, h⟩ := Option.bind_eq_some.mp h
    split at h
    · split at h
      · obtain ⟨hgt, hI⟩ := hInv
        exact splitRootI_inv hI h
      · obtain ⟨pr, hsur, h⟩ := Option.bind_eq_some.mp h
        obtain ⟨st2, pid⟩ := pr
        obtain ⟨hgt, hI⟩ := hInv
        exact ih st2 pid st' h (splitNonRootSurgery_inv hI hsur)
    · cases h
      exact hInv

/-- Lemma: `insertIntoLeafI` (on a leaf node) preserves the structural arena
invariant. -/
theorem insertIntoLeafI_inv {st : StI V} {nid : Nat} {ele : El V} {st' : StI V} {b : Bool}
    (h : insertIntoLeafI st nid ele = some (st', b))
    (hleaf : ∀ n : NodeI V, getNodeI st nid = some n → n.children = [])
    (hInv : InvI st) : InvI st' := by
  unfold insertIntoLeafI at h
  simp only [Option.bind_eq_bind] at h
  obtain ⟨n, hn, h⟩ := Option.bind_eq_some.mp h
  obtain ⟨pr, hsrch, h⟩ := Option.bind_eq_some.mp h
  obtain ⟨ipos, found⟩ := pr
  dsimp only at h
  split at h
  · obtain ⟨st1, hws, h⟩ := Option.bind_eq_some.mp h
    cases h
    obtain ⟨hgt, hI⟩ := hInv
    obtain ⟨hw1, hw2, hw3⟩ := writeSlot_eff hws
    exact ⟨hgt, by rw [hw1, hw2]; exact hI⟩
  · obtain ⟨pa, happ, h⟩ := Option.bind_eq_some.mp h
    obtain ⟨st1, es1⟩ := pa
    dsimp only at h
    obtain ⟨dstS, hdst, h⟩ := Option.bind_eq_some.mp h
    obtain ⟨srcS, hsrc, h⟩ := Option.bind_eq_some.mp h
    obtain ⟨st3, hcpy, h⟩ := Option.bind_eq_some.mp h
    obtain ⟨st4, hws, h⟩ := Option.bind_eq_some.mp h
    obtain ⟨st5, hsp, h⟩ := Option.bind_eq_some.mp h
    cases h
    obtain ⟨ha1, ha2, ha3, ha4⟩ := sliceAppend_eff happ
    obtain ⟨hc1, hc2, hc3⟩ := sliceCopy_eff hcpy
    obtain ⟨hw1, hw2, hw3⟩ := writeSlot_eff hws
    obtain ⟨hgt, hI⟩ := hInv
    have hn' : st.nodes[nid]? = some n := hn
    have hInv4 : InvI st4 := by
      refine ⟨hgt, ?_⟩
      have h2 : ArenaInv (st.nodes.set nid { n with elements := es1 }) st.root hgt :=
        setNode_same_struct_inv hI hn' rfl rfl
          (fun hne => absurd (hleaf n hn) hne)
      have e4 : st4.nodes = st.nodes.set nid { n with elements := es1 } := by
        rw [hw1, hc1]
        show (st1.nodes.set nid _) = _
        rw [ha1]
      have e4r : st4.root = st.root := by
        rw [hw2, hc2]
        show st1.root = st.root
        exact ha2
      rw [e4, e4r]
      exact h2
    exact splitI_inv _ st4 nid st' hsp hInv4

/-- Lemma: the insertion descent preserves the structural arena invariant. -/
theorem insertI_inv : ∀ (fuel : Nat) (st : StI V) (nid : Nat) (ele : El V) (st' : StI V)
    (b : Bool), insertI fuel st nid ele = some (st', b) → InvI st → InvI st' := by
  intro fuel
  induction fuel with
  | zero => intro st nid ele st' b h; exact absurd h (by simp [insertI])
  | succ fuel ih =>
    intro st nid ele st' b h hInv
    rw [insertI] at h
    simp only [Option.bind_eq_bind] at h
    obtain ⟨n, hn, h⟩ := Option.bind_eq_some.mp h
    split at h
    · rename_i hlf
      refine insertIntoLeafI_inv h ?_ hInv
      intro n2 hn2
      rw [hn2] at hn
      cases hn
      exact List.isEmpty_iff.mp hlf
    · obtain ⟨pr, hsrch, h⟩ := Option.bind_eq_some.mp h
      obtain ⟨ipos, found⟩ := pr
      dsimp only at h
      split at h
      · obtain ⟨st1, hws, h⟩ := Option.bind_eq_some.mp h
        cases h
        obtain ⟨hgt, hI⟩ := hInv
        obtain ⟨hw1, hw2, hw3⟩ := writeSlot_eff hws
        exact ⟨hgt, by rw [hw1, hw2]; exact hI⟩
      · obtain ⟨cid, hcid, h⟩ := Option.bind_eq_some.mp h
        exact ih st cid ele st' b h hInv

/-- Lemma: `Put` preserves the structural arena invariant. -/
theorem putI_inv {st : StI V} {k : Int} {v : V} {st' : StI V}
    (h : putI st k v = some st') (hInv : InvI st) : InvI st' := by
  unfold putI at h
  split at h
  · rename_i hrt
    cases h
    obtain ⟨hgt, hI⟩ := hInv
    refine ⟨fun i => if i = st.nodes.length then 0 else hgt i, ?_, ?_, ?_, ?_, ?_, ?_, ?_, ?_⟩
    · intro r0 h0
      cases h0
      simp
    · intro j nj hj c hc
      rw [getElem?_snoc] at hj
      split_ifs at hj with h0
      · cases hj
        simp at hc
      · have := hI.child_lt j nj hj c hc
        simp
        omega
    · intro j nj q hj hq
      rw [getElem?_snoc] at hj
      split_ifs at hj with h0
      · cases hj
        cases hq
      · have := hI.parent_lt j nj q hj hq
        simp
        omega
    · intro j nj hj hleaf
      rw [getElem?_snoc] at hj
      split_ifs at hj with h0
      · simp [h0]
      · have hv : j < st.nodes.length := (List.getElem?_eq_some_iff.mp hj).1
        rw [if_neg h0]
        exact hI.leaf_hgt j nj hj hleaf
    · intro j nj hj c hc
      rw [getElem?_snoc] at hj
      split_ifs at hj with h0
      · cases hj
        simp at hc
      · have hcv : c < st.nodes.length := hI.child_lt j nj hj c hc
        have e1 : ¬(c = st.nodes.length) := by omega
        rw [if_neg e1, if_neg h0]
        exact hI.child_hgt j nj hj c hc
    · intro j nj q hj hq
      rw [getElem?_snoc] at hj
      split_ifs at hj with h0
      · cases hj
        cases hq
      · have hqv : q < st.nodes.length := hI.parent_lt j nj q hj hq
        have e1 : ¬(q = st.nodes.length) := by omega
        rw [if_neg e1, if_neg h0]
        exact hI.parent_hgt j nj q hj hq
    · intro j nj hj hne
      rw [getElem?_snoc] at hj
      split_ifs at hj with h0
      · cases hj
        simp at hne
      · exact hI.count_ok j nj hj hne
    · intro j hj
      simp only [List.length_append, List.length_singleton] at hj
      split_ifs with h0
      · simp
      · have hv : j < st.nodes.length := by omega
        have := hI.hgt_lt j hv
        simp
        omega
  · rename_i rid hrt
    simp only [Option.bind_eq_bind] at h
    obtain ⟨pr, hins, h⟩ := Option.bind_eq_some.mp h
    obtain ⟨st1, added⟩ := pr
    dsimp only at h
    cases h
    obtain ⟨hgt, hI⟩ := insertI_inv _ st rid ⟨k, v⟩ st1 added hins hInv
    exact ⟨hgt, hI⟩

/-- Lemma: `New` satisfies the structural arena invariant. -/
theorem newTreeI_inv (m : Int) : InvI (newTreeI V m) := by
  refine ⟨fun _ => 0, ?_, ?_, ?_, ?_, ?_, ?_, ?_, ?_⟩
  all_goals intros
  all_goals simp_all [newTreeI]

/-- Lemma: `Clear` preserves the structural arena invariant. -/
theorem clearI_inv {st : StI V} (hInv : InvI st) : InvI (clearI st) := by
  obtain ⟨hgt, hI⟩ := hInv
  refine ⟨hgt, ?_, hI.child_lt, hI.parent_lt, hI.leaf_hgt, hI.child_hgt,
    hI.parent_hgt, hI.count_ok, hI.hgt_lt⟩
  intro r0 h0
  cases h0

/-- Lemma: any state built by a sequence of API calls satisfies the structural
arena invariant. -/
theorem runOpsI_inv {m : Int} {ops : List (OpI V)} {st : StI V}
    (h : runOpsI m ops = some st) : InvI st := by
  have hgen : ∀ (l : List (OpI V)) (st0 st1 : StI V), InvI st0 →
      l.foldlM applyOpI st0 = some st1 → InvI st1 := by
    intro l
    induction l with
    | nil =>
      intro st0 st1 h0 hf
      rw [List.foldlM_nil] at hf
      cases hf
      exact h0
    | cons op rest ih =>
      intro st0 st1 h0 hf
      rw [List.foldlM_cons] at hf
      obtain ⟨st2, hap, hf⟩ := Option.bind_eq_some.mp hf
      refine ih st2 st1 ?_ hf
      cases op with
      | opPut k v => exact putI_inv hap h0
      | opClear =>
        cases hap
        exact clearI_inv h0
  exact hgen ops (newTreeI V m) st (newTreeI_inv m) h

/-- Lemma: any state built by a sequence of `Put`s satisfies the structural
arena invariant. -/
theorem runPutsI_inv {m : Int} {ps : List (Int × V)} {st : StI V}
    (h : runPutsI m ps = some st) : InvI st := by
  have hgen : ∀ (l : List (Int × V)) (st0 st1 : StI V), InvI st0 →
      l.foldlM (fun s p => putI s p.1 p.2) st0 = some st1 → InvI st1 := by
    intro l
    induction l with
    | nil =>
      intro st0 st1 h0 hf
      rw [List.foldlM_nil] at hf
      cases hf
      exact h0
    | cons p rest ih =>
      intro st0 st1 h0 hf
      rw [List.foldlM_cons] at hf
      obtain ⟨st2, hap, hf⟩ := Option.bind_eq_some.mp hf
      exact ih st2 st1 (putI_inv hap h0) hf
  exact hgen ps (newTreeI V m) st (newTreeI_inv m) h

/-- Lemma: every visited node id is a valid arena index. -/
theorem reachI_lt {st : StI V} {hgt : Nat → Nat} (hInv : ArenaInv st.nodes st.root hgt) :
    ∀ j : Nat, ReachI st j → j < st.nodes.length := by
  intro j hj
  induction hj with
  | root r hr => exact hInv.root_lt r hr
  | child nid n c hre hn hc ih => exact hInv.child_lt nid n hn c hc

/-- Lemma: totality of an `Option`-valued `mapM` from pointwise totality. -/
theorem mapM_total {α β : Type} (f : α → Option β) (P : α → β → Prop) :
    ∀ l : List α, (∀ a ∈ l, ∃ y, f a = some y ∧ P a y) →
      ∃ ys : List β, l.mapM f = some ys ∧ ∀ y ∈ ys, ∃ a ∈ l, P a y := by
  intro l
  induction l with
  | nil =>
    intro hp
    exact ⟨[], rfl, by simp⟩
  | cons a rest ih =>
    intro hp
    obtain ⟨y, hy, hPy⟩ := hp a (by simp)
    obtain ⟨ys, hys, hPs⟩ := ih (fun a2 ha2 => hp a2 (by simp [ha2]))
    refine ⟨y :: ys, ?_, ?_⟩
    · rw [List.mapM_cons, hy, hys]
      rfl
    · intro y2 hy2
      rcases List.mem_cons.mp hy2 with rfl | hy2
      · exact ⟨a, by simp, hPy⟩
      · obtain ⟨a2, ha2, hP2⟩ := hPs y2 hy2
        exact ⟨a2, by simp [ha2], hP2⟩

/-- Lemma: under the arena invariant, the leaf-depth walk from a valid node
terminates within any fuel above the node's level and every collected depth
equals the start depth plus that level. -/
theorem leafDepthsLoopI_spec {st : StI V} {hgt : Nat → Nat}
    (hInv : ArenaInv st.nodes st.root hgt) :
    ∀ (fuel : Nat) (nid : Nat) (d : Nat), nid < st.nodes.length → hgt nid < fuel →
      ∃ ds : List Nat, leafDepthsLoopI st fuel nid d = some ds ∧
        ∀ x ∈ ds, x = d + hgt nid := by
  intro fuel
  induction fuel with
  | zero => intro nid d hv hf; omega
  | succ fuel ih =>
    intro nid d hv hf
    obtain ⟨n, hn⟩ : ∃ n : NodeI V, st.nodes[nid]? = some n :=
      ⟨st.nodes[nid], List.getElem?_eq_getElem hv⟩
    rw [leafDepthsLoopI]
    simp only [Option.bind_eq_bind]
    rw [show getNodeI st nid = some n from hn]
    simp only [Option.some_bind]
    by_cases hlf : n.children.isEmpty
    · rw [if_pos hlf]
      refine ⟨[d], rfl, ?_⟩
      intro x hx
      have hx0 : x = d := List.mem_singleton.mp hx
      have h0 : hgt nid = 0 := hInv.leaf_hgt nid n hn (List.isEmpty_iff.mp hlf)
      omega
    · rw [if_neg hlf]
      have hrec : ∀ c ∈ n.children, ∃ y, leafDepthsLoopI st fuel c (d + 1) = some y ∧
          ∀ x ∈ y, x = (d + 1) + hgt c := by
        intro c hc
        have hcv : c < st.nodes.length := hInv.child_lt nid n hn c hc
        have hch : hgt c + 1 = hgt nid := hInv.child_hgt nid n hn c hc
        exact ih c (d + 1) hcv (by omega)
      obtain ⟨ys, hys, hP⟩ := mapM_total _ _ n.children hrec
      rw [hys]
      simp only [Option.some_bind]
      refine ⟨ys.flatten, rfl, ?_⟩
      intro x hx
      obtain ⟨y, hy, hxy⟩ := List.mem_flatten.mp hx
      obtain ⟨c, hc, hPc⟩ := hP y hy
      have hch : hgt c + 1 = hgt nid := hInv.child_hgt nid n hn c hc
      have := hPc x hxy
      omega

/-- Lemma: under the structural invariant the leaf-depth observer succeeds and
returns a constant list: all leaves lie at the same depth. -/
theorem leafDepthsI_balanced {st : StI V} (hInv : InvI st) :
    ∃ ds : List Nat, leafDepthsI st = some ds ∧ ∀ d1 ∈ ds, ∀ d2 ∈ ds, d1 = d2 := by
  obtain ⟨hgt, hI⟩ := hInv
  unfold leafDepthsI
  cases hrt : st.root with
  | none => exact ⟨[], rfl, by simp⟩
  | some rid =>
    have hv : rid < st.nodes.length := hI.root_lt rid hrt
    have hfl : hgt rid < st.nodes.length + 2 := by
      have := hI.hgt_lt rid hv
      omega
    obtain ⟨ds, hds, hall⟩ := leafDepthsLoopI_spec hI (st.nodes.length + 2) rid 0 hv hfl
    refine ⟨ds, hds, ?_⟩
    intro d1 h1 d2 h2
    rw [hall d1 h1, hall d2 h2]

end Imp

section Claims

/-- C1: the claim states that for every tree with `m ≥ 2` and the default
comparator, after any `Put` sequence, `Get(k)` finds the most recently `Put`
value of every inserted key.  The code violates it: with `m = 3`, after
`Put 1 a; Put 2 b; Put 3 c; Put 0 d; Put (-1) e` the key `3` — inserted once
and never overwritten — is not found (`Get 3` returns `(_, false)` without
crashing).  The root cause is that `splitRoot`/`splitNonRoot` give `left` and
`right` element slices sharing one backing array while only children are
copied, and a later in-place `append` into `left` overwrites `right`'s
elements. -/
theorem c1_get_loses_inserted_key :
    (do
      let st ← Imp.runPutsI 3 [((1 : Int), "a"), (2, "b"), (3, "c"), (0, "d"), (-1, "e")]
      Imp.getI st 3) = some none ∧
    ([((1 : Int), "a"), (2, "b"), (3, "c"), (0, "d"), (-1, "e")].filter
        (fun p => p.1 == 3)) = [(3, "c")] :=
  ⟨rfl, rfl⟩

/-- C2: the claim states `Size()` equals the number of distinct keys ever
`Put`.  The code violates it: with `m = 3`, the six `Put`s below contain five
distinct keys, but `Size()` returns 6 — after the slice-aliasing corruption
loses key `3`, re-`Put`ting `3` is treated as a new key and increments the
counter a second time. -/
theorem c2_size_exceeds_distinct_keys :
    (Imp.runPutsI 3
        [((1 : Int), "a"), (2, "b"), (3, "c"), (0, "d"), (-1, "e"), (3, "f")]).map
      Imp.StI.size = some 6 ∧
    (([((1 : Int), "a"), (2, "b"), (3, "c"), (0, "d"), (-1, "e"), (3, "f")].map
        Prod.fst).eraseDups).length = 5 :=
  ⟨rfl, rfl⟩

/-- C3: the claim states that after any sequence of `Put`s on a tree created
with `m ≥ 2`, every node reachable from the root has its entries strictly
ascending by the comparator.  The code violates it: with `m = 2`, after the
seven `Put`s below a reachable node holds the key `1` twice (not strictly
ascending).  Once the element-slice aliasing corrupts keys, the promoted key
of a `splitNonRoot` can already be present in the parent; the parent-side
insertion ignores the re-search's found flag (`ipos, _ := t.search(...)`)
and inserts a duplicate.  On the value-semantics translation (no sharing),
the invariant does hold: see `nt_nodes_strictly_ascending` below. -/
theorem c3_node_entries_not_ascending :
    (do
      let st ← Imp.runPutsI 2 [((2 : Int), "a"), (5, "b"), (0, "c"), (1, "d"),
        (5, "e"), (4, "f"), (3, "g")]
      Imp.allNodesSortedI st) = some false ∧
    (do
      let st ← Imp.runPutsI 2 [((2 : Int), "a"), (5, "b"), (0, "c"), (1, "d"),
        (5, "e"), (4, "f"), (3, "g")]
      Imp.keysOfNodeI st 21) = some [1, 1] :=
  ⟨rfl, rfl⟩

/-- The ordering invariant does hold for the intended algorithm: over the
value-semantics translation, after any sequence of `Put`s every node
reachable from the root is strictly ascending. -/
theorem nt_nodes_strictly_ascending {V : Type} (m : Nat) (ps : List (Int × V))
    (t : NT.GoTree V) (hm : 2 ≤ m) (hb : NT.buildPuts m ps = some t)
    (r : NT.GoNode V) (hr : t.root = some r) :
    ∀ x ∈ NT.nodesList r, NT.sortedE x.elements := by
  obtain ⟨t', hb', ht', _⟩ := NT.buildPuts_inv m hm ps
  rw [hb] at hb'
  obtain rfl : t = t' := Option.some.inj hb'
  obtain ⟨⟨h, hbt⟩, _⟩ := ht'.2 r hr
  intro x hx
  exact (NT.BT_nodes_wf hbt x hx).1

/-- C4: after any sequence of `Put`s on a tree created with `m ≥ 2`, every
leaf lies at the same depth from the root.  Proved over the slice-accurate
model via the structural arena invariant: the child structure is immune to
the element-slice aliasing because children arrays are copied fresh on every
split, a root split raises every leaf uniformly, and a non-root split —
whichever (possibly wrong) parent slot the corrupted re-search picks —
replaces a child subtree by halves sitting at the same level. -/
theorem c4_leaves_equal_depth {V : Type} (m : Int) (ps : List (Int × V))
    (st : Imp.StI V) (hm : 2 ≤ m) (hrun : Imp.runPutsI m ps = some st) :
    ∃ ds : List Nat, Imp.leafDepthsI st = some ds ∧
      ∀ d1 ∈ ds, ∀ d2 ∈ ds, d1 = d2 :=
  Imp.leafDepthsI_balanced (Imp.runPutsI_inv hrun)

/-- Witness for C4: the five-`Put` aliasing-corrupted state of C1 still has all
leaves at one depth. -/
theorem c4_leaves_equal_depth_witness :
    2 ≤ (3 : Int) ∧
    ∃ ds : List Nat,
      Imp.leafDepthsI ((Imp.runPutsI 3 [((1 : Int), "a"), (2, "b"), (3, "c"),
        (0, "d"), (-1, "e")]).getD (Imp.newTreeI String 3)) = some ds ∧
      ∀ d1 ∈ ds, ∀ d2 ∈ ds, d1 = d2 :=
  ⟨by norm_num,
   c4_leaves_equal_depth 3 [((1 : Int), "a"), (2, "b"), (3, "c"), (0, "d"), (-1, "e")]
     ((Imp.runPutsI 3 [((1 : Int), "a"), (2, "b"), (3, "c"),
       (0, "d"), (-1, "e")]).getD (Imp.newTreeI String 3)) (by norm_num) (by rfl)⟩

/-- C5: the claim states the key sequence written by `Print` equals the
ascending sort of all distinct inserted keys.  The code violates it: with
`m = 3`, after the five `Put`s below (five distinct keys), `Print` writes
`-1, 0, 1, 2, 1` — not strictly ascending, so not the ascending sort of the
five distinct keys. -/
theorem c5_print_output_not_ascending :
    (do
      let st ← Imp.runPutsI 3 [((1 : Int), "a"), (2, "b"), (3, "c"), (0, "d"), (-1, "e")]
      Imp.printI st) = some [-1, 0, 1, 2, 1] ∧
    ¬ List.Pairwise (· < ·) ([-1, 0, 1, 2, 1] : List Int) ∧
    (([((1 : Int), "a"), (2, "b"), (3, "c"), (0, "d"), (-1, "e")].map
        Prod.fst).eraseDups).length = 5 :=
  ⟨rfl, by decide, rfl⟩

/-- C6: the claim states no node ever holds more than `m - 1` entries after a
completed `Put`.  The code violates it: with `m = 2`, after the five `Put`s
below a node holding 2 entries (`> m - 1 = 1`) remains reachable.  After the
slice-aliasing corruption, `splitNonRoot`'s re-search of the parent for the
promoted key identifies the wrong child slot, so the overflowing node is
never replaced by its halves. -/
theorem c6_node_retains_m_entries :
    (Imp.runPutsI 2 [((3 : Int), "a"), (2, "b"), (1, "c"), (0, "d"), (3, "e")]).map
      Imp.maxNodeLenI = some 2 ∧ ¬(2 ≤ 2 - 1) :=
  ⟨rfl, by decide⟩

/-- C7: the concrete scenario: on a tree with `m = 5`, inserting keys 1..9
with values "a".."i" in ascending order yields size 9, height 2, root
entries `{3, 6}`, children entries `{1,2}`, `{4,5}`, `{7,8,9}`,
`Get 3 = ("c", true)`, `Get 16 = (_, false)`; `Clear()` then gives
`Empty() = true` and `Size() = 0`.  Verified on the slice-accurate model:
this insertion order never makes a left sub-slice grow into a live sibling,
so the aliasing bug stays dormant and the spec's picture is exact. -/
theorem c7_concrete_scenario :
    (Imp.runPutsI 5 [((1 : Int), "a"), (2, "b"), (3, "c"), (4, "d"), (5, "e"),
        (6, "f"), (7, "g"), (8, "h"), (9, "i")]).map Imp.StI.size = some 9 ∧
    (do
      let st ← Imp.runPutsI 5 [((1 : Int), "a"), (2, "b"), (3, "c"), (4, "d"), (5, "e"),
        (6, "f"), (7, "g"), (8, "h"), (9, "i")]
      Imp.heightI st) = some 2 ∧
    (do
      let st ← Imp.runPutsI 5 [((1 : Int), "a"), (2, "b"), (3, "c"), (4, "d"), (5, "e"),
        (6, "f"), (7, "g"), (8, "h"), (9, "i")]
      Imp.rootKeysI st) = some [3, 6] ∧
    (do
      let st ← Imp.runPutsI 5 [((1 : Int), "a"), (2, "b"), (3, "c"), (4, "d"), (5, "e"),
        (6, "f"), (7, "g"), (8, "h"), (9, "i")]
      Imp.childrenKeysI st) = some [[1, 2], [4, 5], [7, 8, 9]] ∧
    (do
      let st ← Imp.runPutsI 5 [((1 : Int), "a"), (2, "b"), (3, "c"), (4, "d"), (5, "e"),
        (6, "f"), (7, "g"), (8, "h"), (9, "i")]
      Imp.getI st 3) = some (some "c") ∧
    (do
      let st ← Imp.runPutsI 5 [((1 : Int), "a"), (2, "b"), (3, "c"), (4, "d"), (5, "e"),
        (6, "f"), (7, "g"), (8, "h"), (9, "i")]
      Imp.getI st 16) = some none ∧
    (Imp.runPutsI 5 [((1 : Int), "a"), (2, "b"), (3, "c"), (4, "d"), (5, "e"),
        (6, "f"), (7, "g"), (8, "h"), (9, "i")]).map
      (fun st => (Imp.emptyI (Imp.clearI st), (Imp.clearI st).size)) = some (true, 0) :=
  ⟨rfl, rfl, rfl, rfl, rfl, rfl, rfl⟩

/-- C8: on an empty tree — freshly created or after `Clear` — `Height()`
returns 0 and `Get(key)` reports not-found for every key, with no error or
nil dereference (the model returns `some`, never the panic value `none`). -/
theorem c8_empty_tree_height_and_get (m : Int) (k : Int) (st : Imp.StI String) :
    Imp.heightI (Imp.newTreeI String m) = some 0 ∧
    Imp.getI (Imp.newTreeI String m) k = some none ∧
    Imp.heightI (Imp.clearI st) = some 0 ∧
    Imp.getI (Imp.clearI st) k = some none :=
  ⟨rfl, rfl, rfl, rfl⟩

/-- C9: on every tree reachable through the public API (`New` with `m ≥ 2`,
`Put`, `Clear`; `Get` does not mutate), the index returned by `search` is at
most the node's entry count, every visited internal node has exactly one more
child than entries, and hence every child access at a search-produced index —
the descents of `searchRecursive` and `insertIntoChildren`, and the height
walk's `Children[0]` — is in range.  Proved over the slice-accurate model:
the counts are immune to the element aliasing because children arrays are
copied fresh and the split surgery grows the parent's element and child
arrays in lockstep, whichever slot the corrupted re-search picked. -/
theorem c9_no_out_of_bounds {V : Type} (m : Int) (ops : List (Imp.OpI V))
    (st : Imp.StI V) (hm : 2 ≤ m) (hrun : Imp.runOpsI m ops = some st) :
    (∀ (nid : Nat) (n : Imp.NodeI V) (key : Int) (i : Nat) (b : Bool),
        Imp.getNodeI st nid = some n → Imp.searchI st nid key = some (i, b) →
        i ≤ n.elements.len) ∧
    (∀ (nid : Nat) (n : Imp.NodeI V), Imp.ReachI st nid →
        Imp.getNodeI st nid = some n → n.children ≠ [] →
        n.children.length = n.elements.len + 1) ∧
    (∀ (nid : Nat) (n : Imp.NodeI V) (i : Nat), Imp.ReachI st nid →
        Imp.getNodeI st nid = some n → n.children ≠ [] → i ≤ n.elements.len →
        ∃ c, n.children[i]? = some c ∧ c < st.nodes.length) := by
  obtain ⟨hgt, hI⟩ := Imp.runOpsI_inv hrun
  refine ⟨?_, ?_, ?_⟩
  · intro nid n key i b hn hs
    exact Imp.searchI_le hn hs
  · intro nid n hre hn hne
    exact hI.count_ok nid n hn hne
  · intro nid n i hre hn hne hile
    have hcnt := hI.count_ok nid n hn hne
    have hilt : i < n.children.length := by omega
    refine ⟨n.children[i], List.getElem?_eq_getElem hilt, ?_⟩
    exact hI.child_lt nid n hn n.children[i] (List.getElem_mem hilt)

/-- Witness for C9: two `Put`s, a `Clear` and another `Put` at `m = 5`. -/
theorem c9_no_out_of_bounds_witness :
    2 ≤ (5 : Int) ∧
    ((∀ (nid : Nat) (n : Imp.NodeI String) (key : Int) (i : Nat) (b : Bool),
        Imp.getNodeI ((Imp.runOpsI 5 [Imp.OpI.opPut 1 "a", Imp.OpI.opPut 2 "b",
          Imp.OpI.opClear, Imp.OpI.opPut 3 "c"]).getD (Imp.newTreeI String 5)) nid =
            some n →
        Imp.searchI ((Imp.runOpsI 5 [Imp.OpI.opPut 1 "a", Imp.OpI.opPut 2 "b",
          Imp.OpI.opClear, Imp.OpI.opPut 3 "c"]).getD (Imp.newTreeI String 5)) nid key =
            some (i, b) →
        i ≤ n.elements.len) ∧
    (∀ (nid : Nat) (n : Imp.NodeI String),
        Imp.ReachI ((Imp.runOpsI 5 [Imp.OpI.opPut 1 "a", Imp.OpI.opPut 2 "b",
          Imp.OpI.opClear, Imp.OpI.opPut 3 "c"]).getD (Imp.newTreeI String 5)) nid →
        Imp.getNodeI ((Imp.runOpsI 5 [Imp.OpI.opPut 1 "a", Imp.OpI.opPut 2 "b",
          Imp.OpI.opClear, Imp.OpI.opPut 3 "c"]).getD (Imp.newTreeI String 5)) nid =
            some n →
        n.children ≠ [] → n.children.length = n.elements.len + 1) ∧
    (∀ (nid : Nat) (n : Imp.NodeI String) (i : Nat),
        Imp.ReachI ((Imp.runOpsI 5 [Imp.OpI.opPut 1 "a", Imp.OpI.opPut 2 "b",
          Imp.OpI.opClear, Imp.OpI.opPut 3 "c"]).getD (Imp.newTreeI String 5)) nid →
        Imp.getNodeI ((Imp.runOpsI 5 [Imp.OpI.opPut 1 "a", Imp.OpI.opPut 2 "b",
          Imp.OpI.opClear, Imp.OpI.opPut 3 "c"]).getD (Imp.newTreeI String 5)) nid =
            some n →
        n.children ≠ [] → i ≤ n.elements.len →
        ∃ c, n.children[i]? = some c ∧
          c < ((Imp.runOpsI 5 [Imp.OpI.opPut 1 "a", Imp.OpI.opPut 2 "b",
            Imp.OpI.opClear, Imp.OpI.opPut 3 "c"]).getD
              (Imp.newTreeI String 5)).nodes.length)) :=
  ⟨by norm_num,
   c9_no_out_of_bounds 5 [Imp.OpI.opPut 1 "a", Imp.OpI.opPut 2 "b",
     Imp.OpI.opClear, Imp.OpI.opPut 3 "c"]
     ((Imp.runOpsI 5 [Imp.OpI.opPut 1 "a", Imp.OpI.opPut 2 "b",
       Imp.OpI.opClear, Imp.OpI.opPut 3 "c"]).getD (Imp.newTreeI String 5))
     (by norm_num) (by rfl)⟩

/-- C10: at every state reachable through the public API (`New` with
`m ≥ 2`, `Put`, `Clear`), the size counter is 0 exactly when the root is
nil, and `Empty()` is true exactly when there is no root. -/
theorem c10_size_zero_iff_no_root {V : Type} (m : Nat) (ops : List (NT.OpT V))
    (t : NT.GoTree V) (hm : 2 ≤ m) (hb : NT.buildOps m ops = some t) :
    (t.size = 0 ↔ t.root = none) ∧ (NT.emptyT t = true ↔ t.root = none) := by
  obtain ⟨t', hb', ht', _⟩ := NT.buildOps_inv m hm ops
  rw [hb] at hb'
  obtain rfl : t = t' := Option.some.inj hb'
  have hiff : t.size = 0 ↔ t.root = none := by
    constructor
    · intro hz
      cases hr : t.root with
      | none => rfl
      | some r => exact absurd hz (ht'.2 r hr).2
    · exact ht'.1
  refine ⟨hiff, ?_⟩
  rw [NT.emptyT]
  simp only [beq_iff_eq]
  exact hiff

/-- Witness for C10: `Put` then `Clear` at `m = 5`. -/
theorem c10_size_zero_iff_no_root_witness :
    2 ≤ 5 ∧
    NT.buildOps 5 [NT.OpT.opPut 1 "a", NT.OpT.opClear] =
      some (⟨none, 0, 5⟩ : NT.GoTree String) ∧
    (((⟨none, 0, 5⟩ : NT.GoTree String).size = 0 ↔
        (⟨none, 0, 5⟩ : NT.GoTree String).root = none) ∧
      (NT.emptyT (⟨none, 0, 5⟩ : NT.GoTree String) = true ↔
        (⟨none, 0, 5⟩ : NT.GoTree String).root = none)) :=
  ⟨by norm_num, rfl,
   c10_size_zero_iff_no_root 5 [NT.OpT.opPut 1 "a", NT.OpT.opClear]
     (⟨none, 0, 5⟩ : NT.GoTree String) (by norm_num) rfl⟩

end Claims
